import Mathlib

/-!
Verification of the intake pipeline of the sd-county-news-scraper repository.

The development shallowly embeds the core logic of the repository:

* `NewsScraper.StoryGrouper` — `src/story_grouper.py` (`StoryGrouper.calculate_similarity`,
  `StoryGrouper._similarity`, `StoryGrouper.group_stories`);
* `NewsScraper.CacheManager` — `src/cache_manager.py` (`_normalize_url`, `mark_seen`, `save`);
* `NewsScraper.Scraper` — `src/scraper.py` (`check_entry_matches`, `is_syndicated_from`,
  and the collection / AI-relevance / delivery phases of `scrape_and_notify`).

Modelling conventions, stated once here:

* Python floats are modelled as exact rationals (`ℚ`).  Every float the grouper
  compares is either a Jaccard ratio (exactly rational), a configured threshold,
  or a cosine similarity; cosine similarity of embedding vectors is abstracted
  as a rational-valued oracle indexed by article positions, because the claims
  about grouping are insensitive to the numeric values produced by that metric.
* Python strings are Lean `String`s; `str.lower()` is `String.toLower`
  (ASCII case folding, adequate for the configured community and title data).
* Python's stable `list.sort` is modelled with `List.insertionSort`, a stable
  sort, over the same key ordering.
* `dict` lookups with a default (`community_exclusions.get`-style access) are
  modelled as total functions returning `[]` for missing keys, which is
  extensionally the behaviour of the Python code.
-/

namespace NewsScraper

/-- `str.lower()` (ASCII case folding), written through the character list so
that it evaluates by kernel reduction. -/
def lowerS (s : String) : String := String.mk (s.toList.map Char.toLower)

/-- `s[:n]` on a Python string, written through the character list. -/
def takeS (s : String) (n : Nat) : String := String.mk (s.toList.take n)

/-! ## Story grouping engine — `src/story_grouper.py` -/

/-- The article dict produced by `check_entry_matches` /
`_build_match_from_entry` and threaded unchanged through urgency tagging,
grouping and delivery.  `pub_datetime` is modelled by its POSIX timestamp
(`pub_ts`, an integer, `none` when the entry had no parseable date); the
display-only `pub_date` string is omitted.  `urgency` and `ai_summary` are the
keys attached by the orchestrator before grouping (absent initially, modelled
by their neutral defaults). -/
structure Article where
  title : String := ""
  pub_ts : Option Int := none
  is_priority : Bool := false
  communities : List String := []
  link : String := ""
  source : String := ""
  excerpt : String := ""
  match_location : String := ""
  urgency : String := ""
  ai_summary : Option String := none
deriving DecidableEq, Repr, Inhabited

namespace StoryGrouper

/-- A word character in the sense of the regex `\w` used by
`re.findall(r'\w+', ...)`: letters, digits or underscore. -/
def isWordChar (c : Char) : Bool := c.isAlphanum || c == '_'

/-- Splits a character list into the maximal runs of word characters,
i.e. `re.findall(r'\w+', s)`. `cur` is the (reversed) run in progress. -/
def wordRuns : List Char → List Char → List String
  | [], cur => if cur.isEmpty then [] else [String.mk cur.reverse]
  | c :: rest, cur =>
    if isWordChar c then wordRuns rest (c :: cur)
    else if cur.isEmpty then wordRuns rest []
    else String.mk cur.reverse :: wordRuns rest []

/-- `re.findall(r'\w+', s.lower())`. -/
def findallWords (s : String) : List String := wordRuns (lowerS s).toList []

/-- The stop-word list removed before the Jaccard comparison
(`stop_words` in `calculate_similarity`). -/
def stop_words : List String :=
  ["the", "a", "an", "and", "or", "but", "in", "on", "at", "to", "for",
   "of", "with", "by", "from", "as", "is", "was", "are", "were", "been",
   "be", "have", "has", "had", "do", "does", "did", "will", "would",
   "could", "should", "may", "might", "must", "can"]

/-- `StoryGrouper.calculate_similarity`: lower-case, tokenize on `\w+`, drop
stop words, and return `|intersection| / |union|` of the remaining token sets;
1.0 when both sets are empty, 0.0 when exactly one is.  The rational division
is written `mkRat` (the exact value of Python's float division here). -/
def calculate_similarity (title1 title2 : String) : ℚ :=
  let words1 : Finset String := (findallWords title1).toFinset \ stop_words.toFinset
  let words2 : Finset String := (findallWords title2).toFinset \ stop_words.toFinset
  if words1 = ∅ ∧ words2 = ∅ then 1
  else if words1 = ∅ ∨ words2 = ∅ then 0
  else
    let intersection := (words1 ∩ words2).card
    let union := (words1 ∪ words2).card
    if 0 < union then mkRat intersection union else 0

/-- `StoryGrouper._similarity` in the lexical (no-embeddings) mode: Jaccard on
the two titles when both are non-empty strings, otherwise 0.0. -/
def similarity_lexical (a b : Article) : ℚ :=
  if a.title ≠ "" ∧ b.title ≠ "" then calculate_similarity a.title b.title else 0

/-- The similarity oracle used inside the `group_stories` loop.  Articles carry
their index in the flat input list (the `article_to_idx` map of the source).
`emb = some f` models the embedding mode (`use_embeddings` true): `f i j` is
the value of `self._similarity(articles[i], articles[j], embedding_vectors, i,
article_to_idx)`, a float abstracted as a rational.  `emb = none` is the
lexical mode. -/
def simOf (emb : Option (Nat → Nat → ℚ)) (a b : Nat × Article) : ℚ :=
  match emb with
  | some f => f a.1 b.1
  | none => similarity_lexical a.2 b.2

/-- `max_similarity` for one candidate group: the running maximum, seeded with
0.0, of the similarity of the incoming article to each member. -/
def maxSim (sim : Nat × Article → ℚ) (group : List (Nat × Article)) : ℚ :=
  group.foldl (fun m ga => max m (sim ga)) 0

/-- The `for idx, group in enumerate(groups)` scan that maintains
`(best_group_idx, best_similarity)`, updating only on a strict improvement. -/
def bestGroupAux (sim : Nat × Article → ℚ) :
    List (List (Nat × Article)) → Nat → Option Nat × ℚ → Option Nat × ℚ
  | [], _, best => best
  | g :: rest, idx, best =>
    let ms := maxSim sim g
    bestGroupAux sim rest (idx + 1) (if ms > best.2 then (some idx, ms) else best)

/-- The scan started from `best_group_idx = None`, `best_similarity = 0.0`. -/
def bestGroup (sim : Nat × Article → ℚ) (groups : List (List (Nat × Article))) :
    Option Nat × ℚ :=
  bestGroupAux sim groups 0 (none, 0)

/-- One iteration of the main loop of `group_stories` on the current list of
groups: the empty-title shortcut (taken only when embeddings are not in use),
then the best-group scan, then append-or-new-group. -/
def groupStep (similarity_threshold : ℚ) (emb : Option (Nat → Nat → ℚ))
    (groups : List (List (Nat × Article))) (ia : Nat × Article) :
    List (List (Nat × Article)) :=
  if ia.2.title = "" ∧ emb.isSome = false then groups ++ [[ia]]
  else
    let best := bestGroup (simOf emb ia) groups
    match best.1 with
    | some idx =>
      if best.2 ≥ similarity_threshold then groups.modify (· ++ [ia]) idx
      else groups ++ [[ia]]
    | none => groups ++ [[ia]]

/-- The composite sort key of the within-group sort:
`(not is_priority, pub_dt is None, -pub_dt.timestamp() or 0)`;
booleans are compared as Python does (`False < True`), encoded as `Nat`. -/
def sort_key (a : Article) : Nat × Nat × Int :=
  ((!a.is_priority).toNat, a.pub_ts.isNone.toNat,
    match a.pub_ts with
    | some t => -t
    | none => 0)

/-- Lexicographic `≤` on sort keys: the order of Python's tuple comparison. -/
def sortKeyLe (a b : Article) : Prop :=
  (sort_key a).1 < (sort_key b).1 ∨
    ((sort_key a).1 = (sort_key b).1 ∧
      ((sort_key a).2.1 < (sort_key b).2.1 ∨
        ((sort_key a).2.1 = (sort_key b).2.1 ∧ (sort_key a).2.2 ≤ (sort_key b).2.2)))

instance : DecidableRel sortKeyLe := fun a b => by
  unfold sortKeyLe; infer_instance

instance : IsTotal Article sortKeyLe :=
  ⟨fun a b => by unfold sortKeyLe; omega⟩

instance : IsTrans Article sortKeyLe :=
  ⟨fun a b c => by unfold sortKeyLe; omega⟩

/-- `StoryGrouper.group_stories`: greedy single-linkage clustering in input
order followed by the stable within-group sort on `sort_key`.  Articles enter
the loop paired with their index in the flat input list. -/
def group_stories (similarity_threshold : ℚ) (articles : List Article)
    (emb : Option (Nat → Nat → ℚ)) : List (List Article) :=
  if articles.isEmpty then []
  else
    (articles.enum.foldl (groupStep similarity_threshold emb) []).map
      (fun g => (g.map Prod.snd).insertionSort sortKeyLe)

/-! ### Helper lemmas about the grouping loop -/

theorem le_foldl_max : ∀ (l : List ℚ) (b : ℚ), b ≤ l.foldl max b
  | [], _ => le_refl _
  | x :: l, b => le_trans (le_max_left b x) (le_foldl_max l (max b x))

theorem foldl_max_of_forall_le : ∀ {l : List ℚ} {b : ℚ}, (∀ x ∈ l, x ≤ b) → l.foldl max b = b
  | [], _, _ => rfl
  | x :: l, b, h => by
    have hx : x ≤ b := h x (List.mem_cons_self x l)
    have : max b x = b := max_eq_left hx
    simp only [List.foldl_cons, this]
    exact foldl_max_of_forall_le fun y hy => h y (List.mem_cons_of_mem x hy)

theorem foldl_max_eq_seed_or_mem : ∀ (l : List ℚ) (b : ℚ),
    l.foldl max b = b ∨ l.foldl max b ∈ l
  | [], _ => Or.inl rfl
  | x :: l, b => by
    simp only [List.foldl_cons]
    rcases foldl_max_eq_seed_or_mem l (max b x) with h | h
    · rcases le_total x b with hxb | hbx
      · left
        rw [h, max_eq_left hxb]
      · right
        rw [h, max_eq_right hbx]
        exact List.mem_cons_self x l
    · right
      exact List.mem_cons_of_mem x h

/-- The index of the first occurrence of `x` (the earliest-created group among
those attaining the best similarity, in the language of the spec). -/
def firstIdxOf (x : ℚ) : List ℚ → Nat
  | [] => 0
  | y :: rest => if y = x then 0 else firstIdxOf x rest + 1

theorem firstIdxOf_lt_length {x : ℚ} : ∀ {l : List ℚ}, x ∈ l → firstIdxOf x l < l.length
  | [], h => absurd h (List.not_mem_nil x)
  | y :: rest, h => by
    by_cases hy : y = x
    · simp [firstIdxOf, hy]
    · have : x ∈ rest := by
        rcases List.mem_cons.1 h with h1 | h1
        · exact absurd h1.symm hy
        · exact h1
      simp only [firstIdxOf, if_neg hy, List.length_cons]
      exact Nat.succ_lt_succ (firstIdxOf_lt_length this)

theorem get?_firstIdxOf {x : ℚ} : ∀ {l : List ℚ}, x ∈ l → l.get? (firstIdxOf x l) = some x
  | [], h => absurd h (List.not_mem_nil x)
  | y :: rest, h => by
    by_cases hy : y = x
    · simp [firstIdxOf, hy]
    · have : x ∈ rest := by
        rcases List.mem_cons.1 h with h1 | h1
        · exact absurd h1.symm hy
        · exact h1
      simp only [firstIdxOf, if_neg hy, List.get?_cons_succ]
      exact get?_firstIdxOf this

/-- Spec-side view of the scan state: the list of per-group `max_similarity`
values for one incoming article. -/
def groupSims (sim : Nat × Article → ℚ) (groups : List (List (Nat × Article))) : List ℚ :=
  groups.map (maxSim sim)

/-- Spec-side view: the best similarity over all groups (0 when there are none). -/
def bestVal (sims : List ℚ) : ℚ := sims.foldl max 0

theorem bestGroupAux_spec (sim : Nat × Article → ℚ) :
    ∀ (gs : List (List (Nat × Article))) (k : Nat) (bi : Option Nat) (bv : ℚ),
      bestGroupAux sim gs k (bi, bv) =
        if bv < (gs.map (maxSim sim)).foldl max bv then
          (some (k + firstIdxOf ((gs.map (maxSim sim)).foldl max bv) (gs.map (maxSim sim))),
            (gs.map (maxSim sim)).foldl max bv)
        else (bi, bv)
  | [], k, bi, bv => by simp [bestGroupAux]
  | g :: rest, k, bi, bv => by
    have hs : (g :: rest).map (maxSim sim) = maxSim sim g :: rest.map (maxSim sim) :=
      List.map_cons _ _ _
    by_cases h : maxSim sim g > bv
    · rw [bestGroupAux]
      simp only [if_pos h]
      rw [bestGroupAux_spec sim rest (k + 1) (some k) (maxSim sim g)]
      have hmax : max bv (maxSim sim g) = maxSim sim g := max_eq_right (le_of_lt h)
      rw [hs]
      simp only [List.foldl_cons, hmax]
      by_cases h2 : maxSim sim g < (rest.map (maxSim sim)).foldl max (maxSim sim g)
      · rw [if_pos h2, if_pos (lt_trans h h2)]
        have hne : maxSim sim g ≠ (rest.map (maxSim sim)).foldl max (maxSim sim g) :=
          ne_of_lt h2
        simp only [firstIdxOf, if_neg hne, Prod.mk.injEq, Option.some.injEq, and_true]
        omega
      · have heq : (rest.map (maxSim sim)).foldl max (maxSim sim g) = maxSim sim g :=
          le_antisymm (not_lt.1 h2) (le_foldl_max _ _)
        rw [if_neg h2, heq, if_pos h]
        simp [firstIdxOf]
    · rw [bestGroupAux]
      simp only [if_neg h]
      rw [bestGroupAux_spec sim rest (k + 1) bi bv]
      have hmax : max bv (maxSim sim g) = bv := max_eq_left (not_lt.1 h)
      rw [hs]
      simp only [List.foldl_cons, hmax]
      by_cases h2 : bv < (rest.map (maxSim sim)).foldl max bv
      · rw [if_pos h2, if_pos h2]
        have hne : maxSim sim g ≠ (rest.map (maxSim sim)).foldl max bv :=
          ne_of_lt (lt_of_le_of_lt (not_lt.1 h) h2)
        simp only [firstIdxOf, if_neg hne, Prod.mk.injEq, Option.some.injEq, and_true]
        omega
      · rw [if_neg h2, if_neg h2]

theorem bestGroup_spec (sim : Nat × Article → ℚ) (groups : List (List (Nat × Article))) :
    bestGroup sim groups =
      if 0 < bestVal (groupSims sim groups) then
        (some (firstIdxOf (bestVal (groupSims sim groups)) (groupSims sim groups)),
          bestVal (groupSims sim groups))
      else (none, 0) := by
  rw [bestGroup, bestGroupAux_spec]
  simp [bestVal, groupSims]

theorem similarity_lexical_left_empty {a b : Article} (h : a.title = "") :
    similarity_lexical a b = 0 := by
  rw [similarity_lexical, if_neg]
  intro hc
  exact hc.1 h

theorem maxSim_eq_zero {sim : Nat × Article → ℚ} {g : List (Nat × Article)}
    (h : ∀ ga ∈ g, sim ga = 0) : maxSim sim g = 0 := by
  rw [maxSim, ← List.foldl_map sim (fun m x => max m x) g 0]
  apply foldl_max_of_forall_le
  intro x hx
  rcases List.mem_map.1 hx with ⟨ga, hga, rfl⟩
  rw [h ga hga]

/-- Characterization of one step of the `group_stories` loop: the article is
appended to the earliest group attaining the best similarity exactly when that
best similarity is strictly positive and at least the threshold; otherwise a
new singleton group is created. -/
theorem groupStep_eq (θ : ℚ) (emb : Option (Nat → Nat → ℚ))
    (groups : List (List (Nat × Article))) (ia : Nat × Article) :
    groupStep θ emb groups ia =
      if 0 < bestVal (groupSims (simOf emb ia) groups) ∧
          θ ≤ bestVal (groupSims (simOf emb ia) groups) then
        groups.modify (· ++ [ia])
          (firstIdxOf (bestVal (groupSims (simOf emb ia) groups)) (groupSims (simOf emb ia) groups))
      else groups ++ [[ia]] := by
  by_cases hshort : ia.2.title = "" ∧ emb.isSome = false
  · rw [groupStep, if_pos hshort]
    have hemb : emb = none := Option.not_isSome_iff_eq_none.1 (by rw [hshort.2]; simp)
    have hzero : bestVal (groupSims (simOf emb ia) groups) = 0 := by
      rw [bestVal, groupSims]
      apply foldl_max_of_forall_le
      intro x hx
      rcases List.mem_map.1 hx with ⟨g, _, rfl⟩
      rw [maxSim_eq_zero]
      intro ga _
      rw [hemb, simOf, similarity_lexical_left_empty hshort.1]
    rw [if_neg]
    intro hc
    rw [hzero] at hc
    exact lt_irrefl 0 hc.1
  · rw [groupStep, if_neg hshort, bestGroup_spec]
    by_cases h0 : 0 < bestVal (groupSims (simOf emb ia) groups)
    · rw [if_pos h0]
      by_cases hθ : bestVal (groupSims (simOf emb ia) groups) ≥ θ
      · rw [if_pos ⟨h0, hθ⟩]
        simp only [hθ, if_true]
      · rw [if_neg fun hc => hθ hc.2]
        simp only [hθ, if_false]
    · rw [if_neg h0, if_neg fun hc => h0 hc.1]

/-- `bestVal` of the similarity list is attained by some group whenever it is
strictly positive. -/
theorem bestVal_mem {sims : List ℚ} (h : 0 < bestVal sims) : bestVal sims ∈ sims := by
  rcases foldl_max_eq_seed_or_mem sims 0 with h1 | h1
  · rw [bestVal] at h
    rw [h1] at h
    exact absurd h (lt_irrefl 0)
  · exact h1

theorem append_singleton_middle_perm {α : Type} (T B D : List α) (a : α) :
    (T ++ ((B ++ [a]) ++ D)).Perm ((T ++ (B ++ D)) ++ [a]) := by
  have h1 : T ++ ((B ++ [a]) ++ D) = (T ++ B) ++ ([a] ++ D) := by
    simp [List.append_assoc]
  have h2 : (T ++ (B ++ D)) ++ [a] = (T ++ B) ++ (D ++ [a]) := by
    simp [List.append_assoc]
  rw [h1, h2]
  exact List.Perm.append_left (T ++ B) List.perm_append_comm

theorem flatten_modify_perm {α : Type} (l : List (List α)) (idx : Nat)
    (h : idx < l.length) (a : α) :
    ((l.modify (· ++ [a]) idx).flatten).Perm (l.flatten ++ [a]) := by
  rw [List.modify_eq_take_cons_drop h]
  conv_rhs => rw [← List.take_append_drop idx l, List.drop_eq_getElem_cons h]
  simp only [List.flatten_append, List.flatten_cons]
  exact append_singleton_middle_perm _ _ _ a

theorem groupStep_flatten_perm (θ : ℚ) (emb : Option (Nat → Nat → ℚ))
    (groups : List (List (Nat × Article))) (ia : Nat × Article) :
    ((groupStep θ emb groups ia).flatten).Perm (groups.flatten ++ [ia]) := by
  rw [groupStep_eq]
  by_cases hc : 0 < bestVal (groupSims (simOf emb ia) groups) ∧
      θ ≤ bestVal (groupSims (simOf emb ia) groups)
  · rw [if_pos hc]
    apply flatten_modify_perm
    have hmem := bestVal_mem hc.1
    have := firstIdxOf_lt_length hmem
    simpa [groupSims] using this
  · rw [if_neg hc]
    simp

theorem foldl_groupStep_flatten_perm (θ : ℚ) (emb : Option (Nat → Nat → ℚ)) :
    ∀ (l : List (Nat × Article)) (acc : List (List (Nat × Article))),
      ((List.foldl (groupStep θ emb) acc l).flatten).Perm (acc.flatten ++ l)
  | [], acc => by simp
  | a :: rest, acc => by
    rw [List.foldl_cons]
    refine (foldl_groupStep_flatten_perm θ emb rest _).trans ?_
    refine ((groupStep_flatten_perm θ emb acc a).append_right rest).trans ?_
    rw [List.append_assoc]
    exact List.Perm.refl _

theorem mem_groupStep {θ : ℚ} {emb : Option (Nat → Nat → ℚ)}
    {groups : List (List (Nat × Article))} {ia : Nat × Article} {x : List (Nat × Article)}
    (hx : x ∈ groupStep θ emb groups ia) :
    x ∈ groups ∨ x = [ia] ∨ ∃ g ∈ groups, x = g ++ [ia] := by
  rw [groupStep_eq] at hx
  by_cases hc : 0 < bestVal (groupSims (simOf emb ia) groups) ∧
      θ ≤ bestVal (groupSims (simOf emb ia) groups)
  · rw [if_pos hc] at hx
    have hlt : firstIdxOf (bestVal (groupSims (simOf emb ia) groups))
        (groupSims (simOf emb ia) groups) < groups.length := by
      have := firstIdxOf_lt_length (bestVal_mem hc.1)
      simpa [groupSims] using this
    rw [List.modify_eq_take_cons_drop hlt] at hx
    rcases List.mem_append.1 hx with h1 | h1
    · exact Or.inl (List.mem_of_mem_take h1)
    · rcases List.mem_cons.1 h1 with h2 | h2
      · exact Or.inr (Or.inr ⟨_, List.getElem_mem hlt, h2⟩)
      · exact Or.inl (List.mem_of_mem_drop h2)
  · rw [if_neg hc] at hx
    rcases List.mem_append.1 hx with h1 | h1
    · exact Or.inl h1
    · exact Or.inr (Or.inl (by simpa using h1))

theorem foldl_groupStep_ne_nil (θ : ℚ) (emb : Option (Nat → Nat → ℚ)) :
    ∀ (l : List (Nat × Article)) (acc : List (List (Nat × Article))),
      (∀ g ∈ acc, g ≠ []) → ∀ g ∈ List.foldl (groupStep θ emb) acc l, g ≠ []
  | [], _, hacc => hacc
  | a :: rest, acc, hacc => by
    rw [List.foldl_cons]
    refine foldl_groupStep_ne_nil θ emb rest _ ?_
    intro g hg
    rcases mem_groupStep hg with h1 | h1 | ⟨g₀, _, rfl⟩
    · exact hacc g h1
    · subst h1
      simp
    · simp

theorem flatten_map_sort_perm :
    ∀ gs : List (List (Nat × Article)),
      ((gs.map (fun g => (g.map Prod.snd).insertionSort sortKeyLe)).flatten).Perm
        ((gs.flatten).map Prod.snd)
  | [] => by simp
  | g :: rest => by
    simp only [List.map_cons, List.flatten_cons, List.map_append]
    exact (List.perm_insertionSort sortKeyLe (g.map Prod.snd)).append
      (flatten_map_sort_perm rest)

/-- Any member of a produced group is, before sorting, a member of a group in
the clustering fold. -/
theorem mem_group_stories {θ : ℚ} {articles : List Article} {emb : Option (Nat → Nat → ℚ)}
    {g : List Article} (hg : g ∈ group_stories θ articles emb) :
    ∃ g₀ ∈ List.foldl (groupStep θ emb) [] articles.enum,
      g = (g₀.map Prod.snd).insertionSort sortKeyLe := by
  rw [group_stories] at hg
  by_cases hempty : articles.isEmpty
  · rw [if_pos hempty] at hg
    exact absurd hg (List.not_mem_nil g)
  · rw [if_neg hempty] at hg
    rcases List.mem_map.1 hg with ⟨g₀, hg₀, rfl⟩
    exact ⟨g₀, hg₀, rfl⟩

/-! ### Claim C1 -/

theorem group_stories_ne_nil (θ : ℚ) (articles : List Article)
    (emb : Option (Nat → Nat → ℚ)) : ∀ g ∈ group_stories θ articles emb, g ≠ [] := by
  intro g hg
  rcases mem_group_stories hg with ⟨g₀, hg₀, rfl⟩
  have h₀ : g₀ ≠ [] := foldl_groupStep_ne_nil θ emb articles.enum []
    (fun g hg => absurd hg (List.not_mem_nil g)) g₀ hg₀
  have hlen : ((g₀.map Prod.snd).insertionSort sortKeyLe).length = g₀.length := by
    rw [(List.perm_insertionSort sortKeyLe (g₀.map Prod.snd)).length_eq, List.length_map]
  intro hnil
  rw [hnil] at hlen
  exact h₀ (List.length_eq_zero.1 hlen.symm)

theorem group_stories_flatten_perm (θ : ℚ) (articles : List Article)
    (emb : Option (Nat → Nat → ℚ)) :
    ((group_stories θ articles emb).flatten).Perm articles := by
  rw [group_stories]
  by_cases hempty : articles.isEmpty
  · rw [if_pos hempty, List.isEmpty_iff.1 hempty]
    simp
  · rw [if_neg hempty]
    refine (flatten_map_sort_perm _).trans ?_
    have hfold := foldl_groupStep_flatten_perm θ emb articles.enum []
    simp only [List.flatten_nil, List.nil_append] at hfold
    refine (hfold.map Prod.snd).trans ?_
    rw [List.enum_map_snd]

/-- **C1**: for every input list of articles, with (`emb = some f`) or without
(`emb = none`) embedding vectors, the groups returned by `group_stories` are
all non-empty, and their concatenation is a permutation of the input list:
every input article appears in exactly one output group, none dropped, none
duplicated. -/
theorem group_stories_partition (θ : ℚ) (articles : List Article)
    (emb : Option (Nat → Nat → ℚ)) :
    (∀ g ∈ group_stories θ articles emb, g ≠ []) ∧
      ((group_stories θ articles emb).flatten).Perm articles :=
  ⟨group_stories_ne_nil θ articles emb, group_stories_flatten_perm θ articles emb⟩

/-! ### Claim C2 -/

/-- **C2**: each article, processed in input order, is appended to the existing
group whose maximum pairwise member similarity to the article
(`maxSim`, single linkage) is highest, provided that maximum is strictly
greater than 0 and at least the configured threshold, with ties broken in
favor of the earliest-created group (`firstIdxOf` of the best value);
otherwise it starts a new singleton group.  `groupStep` is the body of the
`group_stories` loop for one article; `groups` ranges over all intermediate
states. -/
theorem grouping_append_rule (θ : ℚ) (emb : Option (Nat → Nat → ℚ))
    (groups : List (List (Nat × Article))) (ia : Nat × Article) :
    groupStep θ emb groups ia =
      if 0 < bestVal (groupSims (simOf emb ia) groups) ∧
          θ ≤ bestVal (groupSims (simOf emb ia) groups) then
        groups.modify (· ++ [ia])
          (firstIdxOf (bestVal (groupSims (simOf emb ia) groups))
            (groupSims (simOf emb ia) groups))
      else groups ++ [[ia]] :=
  groupStep_eq θ emb groups ia

/-! ### Claim C4 -/

theorem sortKeyLe_imp {a b : Article} (h : sortKeyLe a b) :
    (b.is_priority = true → a.is_priority = true) ∧
      (a.is_priority = b.is_priority → a.pub_ts = none → b.pub_ts = none) ∧
      (a.is_priority = b.is_priority →
        ∀ ta tb : Int, a.pub_ts = some ta → b.pub_ts = some tb → tb ≤ ta) := by
  rcases a with ⟨ta, pa, ra⟩
  rcases b with ⟨tb, pb, rb⟩
  simp only [sortKeyLe, sort_key] at h
  cases ra <;> cases rb <;> cases pa <;> cases pb <;> simp_all

theorem group_stories_sorted {θ : ℚ} {articles : List Article}
    {emb : Option (Nat → Nat → ℚ)} {g : List Article}
    (hg : g ∈ group_stories θ articles emb) : List.Sorted sortKeyLe g := by
  rcases mem_group_stories hg with ⟨g₀, _, rfl⟩
  exact List.sorted_insertionSort sortKeyLe (g₀.map Prod.snd)

/-- **C4**: in every produced group, after the within-group sort, all
priority-source members precede all non-priority members; among members of
equal priority, members with a known publication timestamp precede those
without one; and among members of equal priority with timestamps, more recent
(larger) timestamps precede older ones. -/
theorem group_display_order (θ : ℚ) (articles : List Article)
    (emb : Option (Nat → Nat → ℚ)) (g : List Article)
    (hg : g ∈ group_stories θ articles emb) :
    g.Pairwise (fun a b =>
      (b.is_priority = true → a.is_priority = true) ∧
        (a.is_priority = b.is_priority → a.pub_ts = none → b.pub_ts = none) ∧
        (a.is_priority = b.is_priority →
          ∀ ta tb : Int, a.pub_ts = some ta → b.pub_ts = some tb → tb ≤ ta)) :=
  (group_stories_sorted hg).imp (fun h => sortKeyLe_imp h)

/-- Witness for C4 at a concrete input: the singleton batch groups into one
group, and the ordering property holds there. -/
theorem group_display_order_witness :
    ([(⟨"x", some 5, true, [], "", "", "", "", "", none⟩ : Article)] : List Article).Pairwise (fun a b =>
      (b.is_priority = true → a.is_priority = true) ∧
        (a.is_priority = b.is_priority → a.pub_ts = none → b.pub_ts = none) ∧
        (a.is_priority = b.is_priority →
          ∀ ta tb : Int, a.pub_ts = some ta → b.pub_ts = some tb → tb ≤ ta)) :=
  group_display_order 1 [(⟨"x", some 5, true, [], "", "", "", "", "", none⟩ : Article)] none
    [(⟨"x", some 5, true, [], "", "", "", "", "", none⟩ : Article)] (by decide)

/-! ### Claim C10 -/

theorem similarity_lexical_right_empty {a b : Article} (h : b.title = "") :
    similarity_lexical a b = 0 := by
  rw [similarity_lexical, if_neg]
  intro hc
  exact hc.2 h

theorem getElem_firstIdxOf {x : ℚ} {l : List ℚ} (h : x ∈ l)
    (hlt : firstIdxOf x l < l.length) : l[firstIdxOf x l] = x := by
  have h1 := get?_firstIdxOf h
  rw [List.get?_eq_getElem?, List.getElem?_eq_getElem hlt] at h1
  exact Option.some.inj h1

/-- Loop invariant for the lexical mode: any group of the accumulator that
contains an empty-title member is exactly that member's singleton. -/
def emptyTitleSingletons (acc : List (List (Nat × Article))) : Prop :=
  ∀ g ∈ acc, ∀ ia ∈ g, ia.2.title = "" → g = [ia]

theorem bestVal_of_empty_title {acc : List (List (Nat × Article))} {ia : Nat × Article}
    (h : ia.2.title = "") : bestVal (groupSims (simOf none ia) acc) = 0 := by
  rw [bestVal, groupSims]
  apply foldl_max_of_forall_le
  intro x hx
  rcases List.mem_map.1 hx with ⟨g', _, rfl⟩
  rw [maxSim_eq_zero]
  intro ga _
  rw [simOf, similarity_lexical_left_empty h]

theorem emptyTitleSingletons_groupStep {θ : ℚ} {acc : List (List (Nat × Article))}
    {ia : Nat × Article} (h : emptyTitleSingletons acc) :
    emptyTitleSingletons (groupStep θ none acc ia) := by
  rw [groupStep_eq]
  by_cases hc : 0 < bestVal (groupSims (simOf none ia) acc) ∧
      θ ≤ bestVal (groupSims (simOf none ia) acc)
  · rw [if_pos hc]
    have hmem := bestVal_mem hc.1
    have hlt2 : firstIdxOf (bestVal (groupSims (simOf none ia) acc))
        (groupSims (simOf none ia) acc) < (groupSims (simOf none ia) acc).length :=
      firstIdxOf_lt_length hmem
    have hlt : firstIdxOf (bestVal (groupSims (simOf none ia) acc))
        (groupSims (simOf none ia) acc) < acc.length := by
      simpa [groupSims] using hlt2
    have hg1 : maxSim (simOf none ia)
        (acc[firstIdxOf (bestVal (groupSims (simOf none ia) acc))
          (groupSims (simOf none ia) acc)]) =
        bestVal (groupSims (simOf none ia) acc) := by
      have h0 := getElem_firstIdxOf hmem hlt2
      simp only [groupSims, List.getElem_map] at h0
      exact h0
    intro g hg jb hjb hjtitle
    rw [List.modify_eq_take_cons_drop hlt] at hg
    rcases List.mem_append.1 hg with h1 | h1
    · exact h g (List.mem_of_mem_take h1) jb hjb hjtitle
    rcases List.mem_cons.1 h1 with h2 | h2
    · exfalso
      rw [h2] at hjb
      rcases List.mem_append.1 hjb with h3 | h3
      · have hsing := h _ (List.getElem_mem hlt) jb h3 hjtitle
        rw [hsing] at hg1
        have hzero : maxSim (simOf none ia) [jb] = 0 := by
          apply maxSim_eq_zero
          intro ga hga
          have : ga = jb := by simpa using hga
          rw [this, simOf, similarity_lexical_right_empty hjtitle]
        rw [hzero] at hg1
        rw [← hg1] at hc
        exact absurd hc.1 (lt_irrefl 0)
      · have hia : jb = ia := by simpa using h3
        rw [hia] at hjtitle
        rw [bestVal_of_empty_title hjtitle] at hc
        exact absurd hc.1 (lt_irrefl 0)
    · exact h g (List.mem_of_mem_drop h2) jb hjb hjtitle
  · rw [if_neg hc]
    intro g hg jb hjb hjtitle
    rcases List.mem_append.1 hg with h1 | h1
    · exact h g h1 jb hjb hjtitle
    · have hg2 : g = [ia] := by simpa using h1
      rw [hg2] at hjb
      have : jb = ia := by simpa using hjb
      rw [hg2, this]

theorem emptyTitleSingletons_foldl (θ : ℚ) :
    ∀ (l : List (Nat × Article)) (acc : List (List (Nat × Article))),
      emptyTitleSingletons acc →
        emptyTitleSingletons (List.foldl (groupStep θ none) acc l)
  | [], _, h => h
  | _ :: rest, acc, h => by
    rw [List.foldl_cons]
    exact emptyTitleSingletons_foldl θ rest _ (emptyTitleSingletons_groupStep h)

/-- **C10**: when no embedding vectors are in use, every article with an empty
title ends up in a singleton group: it is placed directly into a new group,
and no later article ever joins that group, because similarity against an
empty-title member is 0.0 and joining requires a similarity strictly greater
than 0. -/
theorem empty_title_singleton_group (θ : ℚ) (articles : List Article)
    (g : List Article) (a : Article) (hg : g ∈ group_stories θ articles none)
    (ha : a ∈ g) (ht : a.title = "") : g = [a] := by
  rcases mem_group_stories hg with ⟨g₀, hg₀, rfl⟩
  have hinv := emptyTitleSingletons_foldl θ articles.enum []
    (fun g hg => absurd hg (List.not_mem_nil g)) g₀ hg₀
  have hmem : a ∈ g₀.map Prod.snd :=
    (List.perm_insertionSort sortKeyLe (g₀.map Prod.snd)).subset ha
  rcases List.mem_map.1 hmem with ⟨ia, hia, rfl⟩
  have hsing := hinv ia hia ht
  rw [hsing]
  simp [List.insertionSort, List.orderedInsert]

/-- Witness for C10: a batch with an empty-title article and another article
produces the empty-title article in its own singleton group. -/
theorem empty_title_singleton_group_witness :
    ([(⟨"", none, false, [], "", "", "", "", "", none⟩ : Article)] ∈
        group_stories 1 [(⟨"", none, false, [], "", "", "", "", "", none⟩ : Article), (⟨"x", none, false, [], "", "", "", "", "", none⟩ : Article)] none) ∧
      ([(⟨"", none, false, [], "", "", "", "", "", none⟩ : Article)] : List Article) = [(⟨"", none, false, [], "", "", "", "", "", none⟩ : Article)] :=
  ⟨by decide,
    empty_title_singleton_group 1 [(⟨"", none, false, [], "", "", "", "", "", none⟩ : Article), (⟨"x", none, false, [], "", "", "", "", "", none⟩ : Article)]
      [(⟨"", none, false, [], "", "", "", "", "", none⟩ : Article)] ((⟨"", none, false, [], "", "", "", "", "", none⟩ : Article)) (by decide) (by decide) rfl⟩

end StoryGrouper

/-! ## URL normalization — `src/cache_manager.py` `_normalize_url`

`_normalize_url` strips the raw URL, parses it with `urllib.parse.urlparse`,
and reassembles scheme + netloc + path with `urlunparse`, dropping params,
query and fragment; on a parse exception it returns the stripped URL.
The model below follows CPython's `urllib/parse.py` (`urlsplit`, `urlparse`,
`urlunsplit`, `_splitnetloc`, `_splitparams`) for `str` input with the default
arguments used here.  Two deliberate simplifications, both noted where they
occur: the NFKC check for non-ASCII netlocs and the 3.11 bracketed-host
validation are not modelled (the model raises exactly on mismatched square
brackets in the netloc, the stable part of the validation); either check only
adds inputs on which `urlparse` raises, and `_normalize_url` maps every
raising input to its stripped self. -/

namespace UrlNorm

/-- Python `str.strip()` whitespace (`str.isspace`): ASCII whitespace,
the C1/Latin-1 additions and the Unicode space separators. -/
def pySpace (c : Char) : Bool :=
  c == ' ' || c == '\t' || c == '\n' || c == '\r' || c.val == 11 || c.val == 12 ||
    c.val == 28 || c.val == 29 || c.val == 30 || c.val == 31 || c.val == 133 ||
    c.val == 160 || c.val == 0x1680 || (0x2000 ≤ c.val && c.val ≤ 0x200A) ||
    c.val == 0x2028 || c.val == 0x2029 || c.val == 0x202F || c.val == 0x205F ||
    c.val == 0x3000

/-- WHATWG C0-control-or-space class stripped from the left by `urlsplit`. -/
def c0Space (c : Char) : Bool := c.val ≤ 32

/-- `_UNSAFE_URL_BYTES_TO_REMOVE`, removed everywhere by `urlsplit`. -/
def unsafeByte (c : Char) : Bool := c == '\t' || c == '\r' || c == '\n'

def lstripP (p : Char → Bool) (l : List Char) : List Char := l.dropWhile p

def rstripP (p : Char → Bool) (l : List Char) : List Char :=
  (l.reverse.dropWhile p).reverse

/-- `str.strip()`. -/
def pyStrip (l : List Char) : List Char := rstripP pySpace (lstripP pySpace l)

/-- `scheme_chars`: ASCII letters, digits and `+-.`. -/
def schemeChar (c : Char) : Bool :=
  c.isAlpha || c.isDigit || c == '+' || c == '-' || c == '.'

/-- Scheme detection of `urlsplit`: a `:` at position `i > 0`, first character
an ASCII letter, all of `url[:i]` in `scheme_chars`; on success the scheme is
lower-cased and the remainder follows the colon. -/
def schemeSplit (l : List Char) : Option (List Char × List Char) :=
  match l.span (fun c => !(c == ':')) with
  | (_, []) => none
  | ([], _ :: _) => none
  | (c0 :: pre, _ :: rest) =>
    if c0.isAlpha ∧ (c0 :: pre).all schemeChar then
      some ((c0 :: pre).map Char.toLower, rest)
    else none

/-- The netloc delimiters of `_splitnetloc`. -/
def netlocDelim (c : Char) : Bool := c == '/' || c == '?' || c == '#'

/-- The `Invalid IPv6 URL` check: a `[` without `]` in the netloc or
conversely. -/
def bracketNetlocBad (netloc : List Char) : Bool :=
  (netloc.contains '[' && !netloc.contains ']') ||
    (netloc.contains ']' && !netloc.contains '[')

/-- `url.split(ch, 1)`: the part before the first occurrence and the part
after it (the whole list and `[]` when absent). -/
def splitOnce (ch : Char) (l : List Char) : List Char × List Char :=
  (l.takeWhile (fun c => !(c == ch)), (l.dropWhile (fun c => !(c == ch))).tail)

/-- `uses_params` (schemes whose path is split at `;` into path + params). -/
def uses_params : List (List Char) :=
  ["", "ftp", "hdl", "prospero", "http", "imap", "https", "shttp", "rtsp",
   "rtsps", "rtspu", "sip", "sips", "mms", "sftp", "tel"].map String.toList

/-- `uses_netloc` (schemes for which `urlunsplit` re-inserts `//`). -/
def uses_netloc : List (List Char) :=
  ["", "ftp", "http", "gopher", "nntp", "telnet", "imap", "wais", "file",
   "mms", "https", "shttp", "snews", "prospero", "rtsp", "rtsps", "rtspu",
   "rsync", "svn", "svn+ssh", "sftp", "nfs", "git", "git+ssh", "ws",
   "wss"].map String.toList

/-- `_splitparams`: drop `;params` from the last path segment (from the whole
path when it has no `/`). -/
def splitparams (p : List Char) : List Char × List Char :=
  if p.contains '/' then
    let seg := (p.reverse.takeWhile (fun c => !(c == '/'))).reverse
    if seg.contains ';' then
      (p.take (p.length - seg.length) ++ (splitOnce ';' seg).1, (splitOnce ';' seg).2)
    else (p, [])
  else splitOnce ';' p

/-- The `(scheme, netloc, path, query, fragment)` of `urlsplit`, or an error
where CPython raises `ValueError`. -/
def urlsplit (url0 : List Char) :
    Except Unit (List Char × List Char × List Char × List Char × List Char) :=
  let url1 := lstripP c0Space url0
  let url2 := url1.filter (fun c => !unsafeByte c)
  let sp := schemeSplit url2
  let scheme := match sp with
    | some (s, _) => s
    | none => []
  let rest := match sp with
    | some (_, r) => r
    | none => url2
  if rest.take 2 = ['/', '/'] then
    let netloc := (rest.drop 2).takeWhile (fun c => !netlocDelim c)
    let rest2 := (rest.drop 2).dropWhile (fun c => !netlocDelim c)
    if bracketNetlocBad netloc then .error ()
    else
      let fr := splitOnce '#' rest2
      let qu := splitOnce '?' fr.1
      .ok (scheme, netloc, qu.1, qu.2, fr.2)
  else
    let fr := splitOnce '#' rest
    let qu := splitOnce '?' fr.1
    .ok (scheme, [], qu.1, qu.2, fr.2)

/-- `urlparse` restricted to the components `_normalize_url` keeps:
scheme, netloc, and path after the params split. -/
def urlparse3 (url : List Char) : Except Unit (List Char × List Char × List Char) :=
  match urlsplit url with
  | .error e => .error e
  | .ok (scheme, netloc, path, _, _) =>
    if scheme ∈ uses_params ∧ path.contains ';' then
      .ok (scheme, netloc, (splitparams path).1)
    else .ok (scheme, netloc, path)

/-- `urlunparse((scheme, netloc, path, "", "", ""))`, i.e.
`urlunsplit((scheme, netloc, path, "", ""))`. -/
def urlunsplit3 (scheme netloc path : List Char) : List Char :=
  let url :=
    if netloc ≠ [] ∨ (scheme ≠ [] ∧ scheme ∈ uses_netloc ∧ path.take 2 ≠ ['/', '/']) then
      '/' :: '/' :: (netloc ++ (if path ≠ [] ∧ path.take 1 ≠ ['/'] then '/' :: path else path))
    else path
  if scheme ≠ [] then scheme ++ ':' :: url else url

/-- `_normalize_url`: scheme + netloc + path only; the stripped input itself
when parsing raises; `""` for empty or all-whitespace input. -/
def _normalize_url (url : String) : String :=
  let t := pyStrip url.toList
  if t = [] then ""
  else
    match urlparse3 t with
    | .ok (s, n, p) => String.mk (urlunsplit3 s n p)
    | .error _ => String.mk t

/-! ### takeWhile / dropWhile toolkit -/

theorem takeWhile_append_all (q : Char → Bool) :
    ∀ (A B : List Char), (∀ a ∈ A, q a = true) →
      (A ++ B).takeWhile q = A ++ B.takeWhile q := by
  intro A
  induction A with
  | nil => intro B _; rfl
  | cons a A ih =>
    intro B h
    have ha : q a = true := h a (List.mem_cons_self a A)
    simp only [List.cons_append, List.takeWhile_cons, ha, if_true]
    rw [ih B (fun x hx => h x (List.mem_cons_of_mem a hx))]

theorem dropWhile_append_all (q : Char → Bool) :
    ∀ (A B : List Char), (∀ a ∈ A, q a = true) →
      (A ++ B).dropWhile q = B.dropWhile q := by
  intro A
  induction A with
  | nil => intro B _; rfl
  | cons a A ih =>
    intro B h
    have ha : q a = true := h a (List.mem_cons_self a A)
    simp only [List.cons_append, List.dropWhile_cons, ha, if_true]
    exact ih B (fun x hx => h x (List.mem_cons_of_mem a hx))

theorem takeWhile_append_pos (q : Char → Bool) :
    ∀ (A B : List Char), A.dropWhile q ≠ [] →
      (A ++ B).takeWhile q = A.takeWhile q := by
  intro A
  induction A with
  | nil => intro B h; exact absurd rfl h
  | cons a A ih =>
    intro B h
    by_cases ha : q a = true
    · simp only [List.dropWhile_cons, ha, if_true] at h
      simp only [List.cons_append, List.takeWhile_cons, ha, if_true]
      rw [ih B h]
    · rw [Bool.not_eq_true] at ha
      simp only [List.cons_append, List.takeWhile_cons, ha]
      simp

theorem dropWhile_append_pos (q : Char → Bool) :
    ∀ (A B : List Char), A.dropWhile q ≠ [] →
      (A ++ B).dropWhile q = A.dropWhile q ++ B := by
  intro A
  induction A with
  | nil => intro B h; exact absurd rfl h
  | cons a A ih =>
    intro B h
    by_cases ha : q a = true
    · simp only [List.dropWhile_cons, ha, if_true] at h
      simp only [List.cons_append, List.dropWhile_cons, ha, if_true]
      exact ih B h
    · rw [Bool.not_eq_true] at ha
      simp only [List.cons_append, List.dropWhile_cons, ha]
      simp

theorem takeWhile_append_cons (q : Char → Bool) (A : List Char) (c : Char)
    (R : List Char) (hc : q c = false) :
    (A ++ c :: R).takeWhile q = A.takeWhile q := by
  by_cases h : A.dropWhile q = []
  · have hall : ∀ a ∈ A, q a = true := List.dropWhile_eq_nil_iff.1 h
    rw [takeWhile_append_all q A (c :: R) hall, List.takeWhile_cons, hc]
    simp only [Bool.false_eq_true, if_false, List.append_nil]
    exact (List.takeWhile_eq_self_iff.2 hall).symm
  · exact takeWhile_append_pos q A (c :: R) h

theorem dropWhile_append_cons (q : Char → Bool) (A : List Char) (c : Char)
    (R : List Char) (hc : q c = false) :
    (A ++ c :: R).dropWhile q = A.dropWhile q ++ c :: R := by
  by_cases h : A.dropWhile q = []
  · have hall : ∀ a ∈ A, q a = true := List.dropWhile_eq_nil_iff.1 h
    rw [dropWhile_append_all q A (c :: R) hall, List.dropWhile_cons, hc, h]
    simp
  · exact dropWhile_append_pos q A (c :: R) h

theorem dropWhile_head_false (q : Char → Bool) :
    ∀ (m : List Char) (d : Char) (t : List Char),
      m.dropWhile q = d :: t → q d = false := by
  intro m
  induction m with
  | nil => intro d t h; simp at h
  | cons a m ih =>
    intro d t h
    by_cases ha : q a = true
    · simp only [List.dropWhile_cons, ha, if_true] at h
      exact ih d t h
    · rw [Bool.not_eq_true] at ha
      simp only [List.dropWhile_cons, ha, Bool.false_eq_true, if_false] at h
      rw [← (List.cons.injEq a m d t ▸ h : a = d ∧ m = t).1]
      exact ha

theorem dropWhile_prefix_fix (q : Char → Bool) :
    ∀ (u m : List Char), m.dropWhile q = m → u <+: m → u.dropWhile q = u := by
  intro u m hm hu
  cases m with
  | nil =>
    have : u = [] := List.prefix_nil.1 hu
    rw [this]; rfl
  | cons a m =>
    have ha : q a = false := dropWhile_head_false q (a :: m) a m hm
    cases u with
    | nil => rfl
    | cons b u =>
      rcases List.cons_prefix_cons.1 hu with ⟨rfl, _⟩
      simp only [List.dropWhile_cons, ha, Bool.false_eq_true, if_false]

/-! ### Strip lemmas -/

theorem lstripP_append_cons (p : Char → Bool) (A : List Char) (c : Char)
    (R : List Char) (hc : p c = false) :
    lstripP p (A ++ c :: R) = lstripP p A ++ c :: R :=
  dropWhile_append_cons p A c R hc

theorem rstripP_append_cons (p : Char → Bool) (A : List Char) (c : Char)
    (R : List Char) (hc : p c = false) :
    rstripP p (A ++ c :: R) = A ++ c :: rstripP p R := by
  unfold rstripP
  rw [List.reverse_append, List.reverse_cons, List.append_assoc,
    List.singleton_append, dropWhile_append_cons p R.reverse c A.reverse hc,
    List.reverse_append, List.reverse_cons, List.reverse_reverse,
    List.append_assoc, List.singleton_append]

theorem pyStrip_append_cons (A : List Char) (c : Char) (R : List Char)
    (hc : pySpace c = false) :
    pyStrip (A ++ c :: R) = lstripP pySpace A ++ c :: rstripP pySpace R := by
  unfold pyStrip
  rw [lstripP_append_cons pySpace A c R hc, rstripP_append_cons pySpace _ c R hc]

theorem lstripP_suffix (p : Char → Bool) (l : List Char) : lstripP p l <:+ l :=
  List.dropWhile_suffix p

theorem rstrip_fix_of_suffix (p : Char → Bool) (u m : List Char)
    (hm : rstripP p m = m) (hu : u <:+ m) : rstripP p u = u := by
  have hm2 : m.reverse.dropWhile p = m.reverse := by
    have := congrArg List.reverse hm
    rwa [rstripP, List.reverse_reverse] at this
  have hu2 : u.reverse <+: m.reverse := List.reverse_prefix.2 hu
  have := dropWhile_prefix_fix p u.reverse m.reverse hm2 hu2
  rw [rstripP, this, List.reverse_reverse]

theorem pyStrip_of_rstrip_fix (b : List Char) (h : rstripP pySpace b = b) :
    pyStrip b = lstripP pySpace b :=
  rstrip_fix_of_suffix pySpace (lstripP pySpace b) b h (lstripP_suffix pySpace b)

/-! ### Character-class lemmas -/

theorem toNat_ofNat_valid (n : Nat) (h : n < 55296) : (Char.ofNat n).toNat = n := by
  rw [Char.ofNat, dif_pos (Or.inl h : n.isValidChar)]
  rfl

theorem toLower_eq_or (c : Char) :
    c.toLower = c ∨
      (65 ≤ c.toNat ∧ c.toNat ≤ 90 ∧ c.toLower.toNat = c.toNat + 32) := by
  simp only [Char.toLower]
  by_cases h : c.toNat ≥ 65 ∧ c.toNat ≤ 90
  · right
    refine ⟨h.1, h.2, ?_⟩
    rw [if_pos h]
    exact toNat_ofNat_valid _ (by omega)
  · left
    rw [if_neg h]

theorem uint32_le_iff_toNat_le (a b : UInt32) : a ≤ b ↔ a.toNat ≤ b.toNat := by
  rw [UInt32.le_def, BitVec.le_def]
  exact Iff.rfl

theorem isUpper_iff_toNat (c : Char) :
    c.isUpper = true ↔ 65 ≤ c.toNat ∧ c.toNat ≤ 90 := by
  have e1 : (65 : UInt32).toNat = 65 := by decide
  have e2 : (90 : UInt32).toNat = 90 := by decide
  simp only [Char.isUpper, ge_iff_le, Bool.and_eq_true, decide_eq_true_eq]
  rw [uint32_le_iff_toNat_le, uint32_le_iff_toNat_le, e1, e2]
  exact Iff.rfl

theorem isLower_iff_toNat (c : Char) :
    c.isLower = true ↔ 97 ≤ c.toNat ∧ c.toNat ≤ 122 := by
  have e1 : (97 : UInt32).toNat = 97 := by decide
  have e2 : (122 : UInt32).toNat = 122 := by decide
  simp only [Char.isLower, ge_iff_le, Bool.and_eq_true, decide_eq_true_eq]
  rw [uint32_le_iff_toNat_le, uint32_le_iff_toNat_le, e1, e2]
  exact Iff.rfl

theorem isAlpha_toLower (c : Char) (h : c.isAlpha = true) :
    c.toLower.isAlpha = true := by
  rcases toLower_eq_or c with he | ⟨h1, h2, h3⟩
  · rwa [he]
  · simp only [Char.isAlpha, Bool.or_eq_true]
    right
    rw [isLower_iff_toNat, h3]
    omega

theorem toLower_toLower (c : Char) : c.toLower.toLower = c.toLower := by
  rcases toLower_eq_or c with he | ⟨h1, h2, h3⟩
  · rw [he, he]
  · rcases toLower_eq_or c.toLower with he2 | ⟨h4, h5, _⟩
    · exact he2
    · omega

theorem schemeChar_toLower (c : Char) (h : schemeChar c = true) :
    schemeChar c.toLower = true := by
  rcases toLower_eq_or c with he | ⟨h1, h2, h3⟩
  · rwa [he]
  · have hl : c.toLower.isLower = true := by rw [isLower_iff_toNat, h3]; omega
    simp [schemeChar, Char.isAlpha, hl]

theorem isAlpha_not_c0Space (c : Char) (h : c.isAlpha = true) :
    c0Space c = false := by
  simp only [Char.isAlpha, Bool.or_eq_true] at h
  have h2 : 65 ≤ c.toNat := by
    rcases h with h | h
    · exact ((isUpper_iff_toNat c).1 h).1
    · have := ((isLower_iff_toNat c).1 h).1; omega
  simp only [c0Space, decide_eq_false_iff_not]
  intro hle
  have := (uint32_le_iff_toNat_le c.val 32).1 hle
  have e : (32 : UInt32).toNat = 32 := by decide
  rw [e] at this
  have ec : c.val.toNat = c.toNat := rfl
  omega

/-! ### Tail irrelevance: a `?` or `#` separator hides everything after it
from the `(scheme, netloc, path)` triple of `urlparse` -/

theorem schemeSplit_tail (X R : List Char) (c : Char) (halpha : c.isAlpha = false)
    (hsch : schemeChar c = false) (hcolon : (c == ':') = false) :
    schemeSplit (X ++ c :: R) =
      match schemeSplit X with
      | some (s, r) => some (s, r ++ c :: R)
      | none => none := by
  unfold schemeSplit
  rw [List.span_eq_take_drop, List.span_eq_take_drop]
  have hqc' : (!(c == ':')) = true := by rw [hcolon]; rfl
  by_cases h : X.dropWhile (fun ch => !(ch == ':')) = []
  · have hall := List.dropWhile_eq_nil_iff.1 h
    rw [takeWhile_append_all _ X (c :: R) hall, dropWhile_append_all _ X (c :: R) hall,
      List.takeWhile_cons, List.dropWhile_cons, h]
    simp only [if_pos hqc']
    rcases hr : R.dropWhile (fun ch => !(ch == ':')) with _ | ⟨d, t⟩
    · cases X <;> rfl
    · cases X with
      | nil =>
        dsimp only [List.nil_append]
        have hcontr : ¬(c.isAlpha = true ∧
            ((c :: R.takeWhile fun ch => !(ch == ':')).all schemeChar) = true) := by
          rintro ⟨h1, _⟩
          rw [halpha] at h1
          exact absurd h1 (by simp)
        rw [if_neg hcontr]
      | cons x X' =>
        dsimp only [List.cons_append]
        have hallf : ((x :: (X' ++ c :: R.takeWhile fun ch => !(ch == ':'))).all schemeChar)
            = false := by
          rw [List.all_eq_false]
          exact ⟨c, by simp, by simp [hsch]⟩
        have hcontr : ¬(x.isAlpha = true ∧
            ((x :: (X' ++ c :: R.takeWhile fun ch => !(ch == ':'))).all schemeChar) = true) := by
          rintro ⟨_, h2⟩
          rw [hallf] at h2
          exact absurd h2 (by simp)
        rw [if_neg hcontr]
  · rw [takeWhile_append_pos _ X (c :: R) h, dropWhile_append_pos _ X (c :: R) h]
    rcases hX : X.dropWhile (fun ch => !(ch == ':')) with _ | ⟨d, t⟩
    · exact absurd hX h
    · dsimp only [List.cons_append]
      rcases hT : X.takeWhile (fun ch => !(ch == ':')) with _ | ⟨c0, pre⟩
      · rfl
      · dsimp only
        by_cases hcond : c0.isAlpha = true ∧ ((c0 :: pre).all schemeChar) = true
        · rw [if_pos hcond, if_pos hcond]
        · rw [if_neg hcond, if_neg hcond]

/-- The part of `urlsplit` after scheme detection, on the remainder. -/
def splitRest (scheme rest : List Char) :
    Except Unit (List Char × List Char × List Char × List Char × List Char) :=
  if rest.take 2 = ['/', '/'] then
    let netloc := (rest.drop 2).takeWhile (fun c => !netlocDelim c)
    let rest2 := (rest.drop 2).dropWhile (fun c => !netlocDelim c)
    if bracketNetlocBad netloc then .error ()
    else
      let fr := splitOnce '#' rest2
      let qu := splitOnce '?' fr.1
      .ok (scheme, netloc, qu.1, qu.2, fr.2)
  else
    let fr := splitOnce '#' rest
    let qu := splitOnce '?' fr.1
    .ok (scheme, [], qu.1, qu.2, fr.2)

theorem urlsplit_eq (url0 : List Char) :
    urlsplit url0 =
      match schemeSplit ((lstripP c0Space url0).filter (fun ch => !unsafeByte ch)) with
      | some (s, r) => splitRest s r
      | none => splitRest [] ((lstripP c0Space url0).filter (fun ch => !unsafeByte ch)) := by
  unfold urlsplit splitRest
  rcases h : schemeSplit ((lstripP c0Space url0).filter (fun ch => !unsafeByte ch)) with _ | ⟨s, r⟩ <;>
    simp only [h]

theorem take2_append_cons (D R : List Char) (c : Char) (hc : (c == '/') = false) :
    ((D ++ c :: R).take 2 = ['/', '/']) ↔ (D.take 2 = ['/', '/']) := by
  have hc' : c ≠ '/' := by simpa using hc
  cases D with
  | nil =>
    simp only [List.nil_append, List.take_succ_cons]
    constructor
    · intro h; injection h with h1 _; exact absurd h1 hc'
    · intro h; simp at h
  | cons a D1 =>
    cases D1 with
    | nil =>
      simp only [List.cons_append, List.nil_append, List.take_succ_cons,
        List.take_nil, List.take_zero]
      constructor
      · intro h; injection h with _ h2; injection h2 with h3 _; exact absurd h3 hc'
      · intro h; injection h with _ h2; simp at h2
    | cons b D2 =>
      simp only [List.cons_append, List.take_succ_cons, List.take_zero]

theorem path12_tail (E R : List Char) (c : Char) (hc : c = '?' ∨ c = '#') :
    ((E ++ c :: R).takeWhile (fun x => !(x == '#'))).takeWhile (fun x => !(x == '?')) =
      (E.takeWhile (fun x => !(x == '#'))).takeWhile (fun x => !(x == '?')) := by
  rcases hc with rfl | rfl
  · by_cases h : E.dropWhile (fun x => !(x == '#')) = []
    · have hall := List.dropWhile_eq_nil_iff.1 h
      rw [takeWhile_append_all _ E ('?' :: R) hall, List.takeWhile_cons]
      simp only [if_pos (show (!('?' == '#')) = true by decide)]
      rw [takeWhile_append_cons _ E '?' _ (by decide)]
      rw [List.takeWhile_eq_self_iff.2 hall]
    · rw [takeWhile_append_pos _ E ('?' :: R) h]
  · rw [takeWhile_append_cons _ E '#' R (by decide)]

theorem splitRest_tail (scheme D R : List Char) (c : Char) (hc : c = '?' ∨ c = '#') :
    (splitRest scheme (D ++ c :: R)).map (fun t => (t.1, t.2.1, t.2.2.1)) =
      (splitRest scheme D).map (fun t => (t.1, t.2.1, t.2.2.1)) := by
  have hslash : (c == '/') = false := by rcases hc with rfl | rfl <;> decide
  have hdelim : (fun ch => !netlocDelim ch) c = false := by
    rcases hc with rfl | rfl <;> decide
  unfold splitRest
  by_cases h2 : D.take 2 = ['/', '/']
  · rw [if_pos ((take2_append_cons D R c hslash).2 h2), if_pos h2]
    obtain ⟨D', rfl⟩ : ∃ D', D = '/' :: '/' :: D' := by
      cases D with
      | nil => simp at h2
      | cons a D1 =>
        cases D1 with
        | nil => simp [List.take_succ_cons] at h2
        | cons b D2 =>
          simp only [List.take_succ_cons, List.take_zero] at h2
          injection h2 with ha h2'
          injection h2' with hb _
          exact ⟨D2, by rw [ha, hb]⟩
    simp only [List.cons_append, List.drop_succ_cons, List.drop_zero]
    rw [takeWhile_append_cons _ D' c R hdelim, dropWhile_append_cons _ D' c R hdelim]
    by_cases hbr : bracketNetlocBad (D'.takeWhile fun ch => !netlocDelim ch) = true
    · rw [if_pos hbr, if_pos hbr]
    · rw [if_neg hbr, if_neg hbr]
      simp only [Except.map, splitOnce]
      rw [path12_tail (D'.dropWhile fun ch => !netlocDelim ch) R c hc]
  · rw [if_neg (fun hh => h2 ((take2_append_cons D R c hslash).1 hh)), if_neg h2]
    simp only [Except.map, splitOnce]
    rw [path12_tail D R c hc]

theorem urlsplit_tail3 (X R : List Char) (c : Char) (hc : c = '?' ∨ c = '#') :
    (urlsplit (X ++ c :: R)).map (fun t => (t.1, t.2.1, t.2.2.1)) =
      (urlsplit X).map (fun t => (t.1, t.2.1, t.2.2.1)) := by
  have hc0 : c0Space c = false := by rcases hc with rfl | rfl <;> decide
  have hunsafe : (fun ch => !unsafeByte ch) c = true := by
    rcases hc with rfl | rfl <;> decide
  have halpha : c.isAlpha = false := by rcases hc with rfl | rfl <;> decide
  have hsch : schemeChar c = false := by rcases hc with rfl | rfl <;> decide
  have hcolon : (c == ':') = false := by rcases hc with rfl | rfl <;> decide
  rw [urlsplit_eq (X ++ c :: R), urlsplit_eq X,
    lstripP_append_cons c0Space X c R hc0, List.filter_append]
  rw [show (c :: R).filter (fun ch => !unsafeByte ch) =
      c :: R.filter (fun ch => !unsafeByte ch) by simp [List.filter_cons, hunsafe]]
  rw [schemeSplit_tail _ (R.filter fun ch => !unsafeByte ch) c halpha hsch hcolon]
  rcases hss : schemeSplit ((lstripP c0Space X).filter fun ch => !unsafeByte ch) with _ | ⟨s, r⟩
  · simp only []
    exact splitRest_tail [] _ (R.filter fun ch => !unsafeByte ch) c hc
  · simp only []
    exact splitRest_tail s r (R.filter fun ch => !unsafeByte ch) c hc

theorem urlparse3_tail (X R : List Char) (c : Char) (hc : c = '?' ∨ c = '#') :
    urlparse3 (X ++ c :: R) = urlparse3 X := by
  have h3 := urlsplit_tail3 X R c hc
  unfold urlparse3
  rcases h1 : urlsplit (X ++ c :: R) with e | ⟨s1, n1, p1, q1, f1⟩ <;>
    rcases h2 : urlsplit X with e2 | ⟨s2, n2, p2, q2, f2⟩ <;>
      rw [h1, h2] at h3 <;> simp only [Except.map] at h3
  · exact absurd h3 (by simp)
  · exact absurd h3 (by simp)
  · injection h3 with h4
    injection h4 with hs h5
    injection h5 with hn hp
    rw [hs, hn, hp]

/-! ### Query/fragment invariance of `_normalize_url` -/

theorem normalize_mk_eq (l : List Char) :
    _normalize_url (String.mk l) =
      (if pyStrip l = [] then ""
       else match urlparse3 (pyStrip l) with
         | .ok (s, n, p) => String.mk (urlunsplit3 s n p)
         | .error _ => String.mk (pyStrip l)) := rfl

theorem query_fragment_invariance_aux (b r₁ r₂ : List Char) (c₁ c₂ : Char)
    (h₁ : c₁ = '?' ∨ c₁ = '#') (h₂ : c₂ = '?' ∨ c₂ = '#')
    (hok : (urlparse3 (pyStrip (b ++ c₁ :: r₁))).isOk = true) :
    _normalize_url (String.mk (b ++ c₁ :: r₁)) =
      _normalize_url (String.mk (b ++ c₂ :: r₂)) := by
  have hps₁ : pySpace c₁ = false := by rcases h₁ with rfl | rfl <;> decide
  have hps₂ : pySpace c₂ = false := by rcases h₂ with rfl | rfl <;> decide
  have hst₁ := pyStrip_append_cons b c₁ r₁ hps₁
  have hst₂ := pyStrip_append_cons b c₂ r₂ hps₂
  have hpar₁ : urlparse3 (pyStrip (b ++ c₁ :: r₁)) = urlparse3 (lstripP pySpace b) := by
    rw [hst₁]; exact urlparse3_tail _ _ c₁ h₁
  have hpar₂ : urlparse3 (pyStrip (b ++ c₂ :: r₂)) = urlparse3 (lstripP pySpace b) := by
    rw [hst₂]; exact urlparse3_tail _ _ c₂ h₂
  rw [hpar₁] at hok
  rcases hX : urlparse3 (lstripP pySpace b) with e | ⟨s, n, p⟩
  · rw [hX] at hok; cases e; exact absurd hok (by decide)
  · rw [normalize_mk_eq (b ++ c₁ :: r₁), normalize_mk_eq (b ++ c₂ :: r₂),
      if_neg (show ¬(pyStrip (b ++ c₁ :: r₁) = []) by rw [hst₁]; simp),
      if_neg (show ¬(pyStrip (b ++ c₂ :: r₂) = []) by rw [hst₂]; simp),
      hpar₁, hpar₂, hX]

theorem bare_append_sep_aux (b r : List Char) (c : Char)
    (hc : c = '?' ∨ c = '#') (hb : rstripP pySpace b = b)
    (hok : (urlparse3 (pyStrip b)).isOk = true) :
    _normalize_url (String.mk b) = _normalize_url (String.mk (b ++ c :: r)) := by
  have hps : pySpace c = false := by rcases hc with rfl | rfl <;> decide
  have hXb : pyStrip b = lstripP pySpace b := pyStrip_of_rstrip_fix b hb
  have hst : pyStrip (b ++ c :: r) = lstripP pySpace b ++ c :: rstripP pySpace r :=
    pyStrip_append_cons b c r hps
  have hpar : urlparse3 (pyStrip (b ++ c :: r)) = urlparse3 (pyStrip b) := by
    rw [hst, hXb]; exact urlparse3_tail _ _ c hc
  rcases hP : urlparse3 (pyStrip b) with e | ⟨s, n, p⟩
  · rw [hP] at hok; cases e; exact absurd hok (by decide)
  · by_cases hnil : pyStrip b = []
    · have hXnil : lstripP pySpace b = [] := by rw [← hXb]; exact hnil
      have hmt : urlparse3 ([] : List Char) = .ok ([], [], []) := rfl
      have h0 : ([], [], []) = (s, n, p) := by
        have := hP
        rw [hnil, hmt] at this
        injection this
      rw [normalize_mk_eq b, normalize_mk_eq (b ++ c :: r), if_pos hnil,
        if_neg (show ¬(pyStrip (b ++ c :: r) = []) by rw [hst, hXnil]; simp),
        hpar, hP, ← h0]
      rfl
    · rw [normalize_mk_eq b, normalize_mk_eq (b ++ c :: r), if_neg hnil,
        if_neg (show ¬(pyStrip (b ++ c :: r) = []) by rw [hst]; simp),
        hpar, hP]

/-! ### The last path segment and `_splitparams` -/

/-- The maximal `/`-free suffix of a path (the whole path when it has no
`/`); `_splitparams` only ever strips `;params` inside this suffix. -/
def lastSeg (l : List Char) : List Char :=
  (l.reverse.takeWhile (fun c => !(c == '/'))).reverse

theorem mem_lastSeg (x : Char) (l : List Char) (h : x ∈ lastSeg l) : x ∈ l := by
  unfold lastSeg at h
  rw [List.mem_reverse] at h
  have := (List.takeWhile_prefix (fun c => !(c == '/'))).subset h
  rwa [List.mem_reverse] at this

theorem lastSeg_no_slash (x : Char) (l : List Char) (h : x ∈ lastSeg l) :
    (x == '/') = false := by
  unfold lastSeg at h
  rw [List.mem_reverse] at h
  have := List.mem_takeWhile_imp h
  simpa using this

theorem lastSeg_cons_slash (l : List Char) : lastSeg ('/' :: l) = lastSeg l := by
  unfold lastSeg
  rw [List.reverse_cons, takeWhile_append_cons _ l.reverse '/' [] (by decide)]

theorem lastSeg_decomp (l : List Char) :
    l = (l.reverse.dropWhile (fun c => !(c == '/'))).reverse ++ lastSeg l := by
  unfold lastSeg
  have := congrArg List.reverse (List.takeWhile_append_dropWhile
    (p := fun c => !(c == '/')) (l := l.reverse))
  rw [List.reverse_append, List.reverse_reverse] at this
  exact this.symm

theorem lastSeg_eq_self_of_no_slash (l : List Char) (h : '/' ∉ l) : lastSeg l = l := by
  unfold lastSeg
  rw [List.takeWhile_eq_self_iff.2, List.reverse_reverse]
  intro a ha
  rw [List.mem_reverse] at ha
  simp only [Bool.not_eq_true']
  rw [beq_eq_false_iff_ne]
  intro he
  exact h (he ▸ ha)

theorem lastSeg_append (pre w : List Char)
    (hw : ∀ x ∈ w, (x == '/') = false)
    (hpre : pre = [] ∨ ∃ rest, pre.reverse = '/' :: rest) :
    lastSeg (pre ++ w) = w := by
  unfold lastSeg
  rw [List.reverse_append,
    takeWhile_append_all _ w.reverse pre.reverse
      (by intro a ha; rw [List.mem_reverse] at ha; simp [hw a ha])]
  rcases hpre with rfl | ⟨rest, hrev⟩
  · simp
  · rw [hrev]
    simp [List.takeWhile_cons]

theorem contains_iff_mem (l : List Char) (a : Char) : l.contains a = true ↔ a ∈ l := by
  simp [List.contains]

/-- `_splitparams` keeps a prefix of its input as the params-free path. -/
theorem splitparams_fst_prefix (pa : List Char) : (splitparams pa).1 <+: pa := by
  unfold splitparams
  by_cases hsl : pa.contains '/' = true
  · rw [if_pos hsl]
    simp only []
    by_cases hsemi : ((pa.reverse.takeWhile (fun c => !(c == '/'))).reverse.contains ';') = true
    · rw [if_pos hsemi]
      simp only [splitOnce]
      have hdec := lastSeg_decomp pa
      set pre := (pa.reverse.dropWhile (fun c => !(c == '/'))).reverse with hpre
      have hL : pa.length = pre.length + (lastSeg pa).length := by
        conv_lhs => rw [hdec]
        rw [List.length_append]
      have hlen : pa.length - (lastSeg pa).length = pre.length := by omega
      have htk : pa.take (pa.length - (lastSeg pa).length) = pre := by
        rw [hlen]
        conv_lhs => rw [hdec]
        exact List.take_left pre (lastSeg pa)
      show pa.take (pa.length - (lastSeg pa).length) ++ (lastSeg pa).takeWhile _ <+: pa
      rw [htk]
      rcases List.takeWhile_prefix (l := lastSeg pa) (p := fun c => !(c == ';')) with ⟨t, ht⟩
      refine ⟨t, ?_⟩
      rw [List.append_assoc, ht]
      exact hdec.symm
    · rw [if_neg hsemi]
  · rw [if_neg hsl]
    simp only [splitOnce]
    exact List.takeWhile_prefix _

/-- When the last segment is `;`-free, `_splitparams` keeps the whole path. -/
theorem splitparams_fst_eq (pa : List Char) (h : ';' ∉ lastSeg pa) :
    (splitparams pa).1 = pa := by
  unfold splitparams
  by_cases hsl : pa.contains '/' = true
  · rw [if_pos hsl]
    simp only []
    rw [if_neg (by
      show ¬((pa.reverse.takeWhile (fun c => !(c == '/'))).reverse.contains ';' = true)
      intro hc
      exact h ((contains_iff_mem _ _).1 hc))]
  · rw [if_neg hsl]
    simp only [splitOnce]
    have hns : '/' ∉ pa := fun hm => hsl ((contains_iff_mem _ _).2 hm)
    rw [lastSeg_eq_self_of_no_slash pa hns] at h
    exact List.takeWhile_eq_self_iff.2 (by
      intro a ha
      simp only [Bool.not_eq_true']
      rw [beq_eq_false_iff_ne]
      intro he
      exact h (he ▸ ha))

/-- After `_splitparams`, the last segment of the kept path is `;`-free. -/
theorem lastSeg_splitparams_no_semi (pa : List Char) :
    ';' ∉ lastSeg ((splitparams pa).1) := by
  unfold splitparams
  by_cases hsl : pa.contains '/' = true
  · rw [if_pos hsl]
    simp only []
    by_cases hsemi : ((pa.reverse.takeWhile (fun c => !(c == '/'))).reverse.contains ';') = true
    · rw [if_pos hsemi]
      simp only [splitOnce]
      have hdec := lastSeg_decomp pa
      set pre := (pa.reverse.dropWhile (fun c => !(c == '/'))).reverse with hpre
      have hL : pa.length = pre.length + (lastSeg pa).length := by
        conv_lhs => rw [hdec]
        rw [List.length_append]
      have hlen : pa.length - (lastSeg pa).length = pre.length := by omega
      have htk : pa.take (pa.length - (lastSeg pa).length) = pre := by
        rw [hlen]
        conv_lhs => rw [hdec]
        exact List.take_left pre (lastSeg pa)
      show ';' ∉ lastSeg (pa.take (pa.length - (lastSeg pa).length) ++
        (lastSeg pa).takeWhile (fun c => !(c == ';')))
      rw [htk, lastSeg_append pre ((lastSeg pa).takeWhile (fun c => !(c == ';')))
        (by
          intro x hx
          exact lastSeg_no_slash x pa
            ((List.takeWhile_prefix (fun c => !(c == ';'))).subset hx))
        (by
          rcases hrev : pa.reverse.dropWhile (fun c => !(c == '/')) with _ | ⟨d, rest⟩
          · left; rw [hpre, hrev]; rfl
          · right
            refine ⟨rest, ?_⟩
            rw [hpre, List.reverse_reverse, hrev]
            have hd : (fun c => !(c == '/')) d = false :=
              dropWhile_head_false _ pa.reverse d rest hrev
            have : d = '/' := by simpa using hd
            rw [this])]
      intro hmem
      have := List.mem_takeWhile_imp hmem
      simp at this
    · rw [if_neg hsemi]
      show ';' ∉ lastSeg pa
      intro hm
      exact hsemi ((contains_iff_mem _ _).2 hm)
  · rw [if_neg hsl]
    simp only [splitOnce]
    have hsub : ∀ x ∈ pa.takeWhile (fun c => !(c == ';')), x ∈ pa :=
      fun x hx => (List.takeWhile_prefix _).subset hx
    have hns : '/' ∉ pa.takeWhile (fun c => !(c == ';')) := by
      intro hm
      exact hsl ((contains_iff_mem _ _).2 (hsub '/' hm))
    rw [lastSeg_eq_self_of_no_slash _ hns]
    intro hm
    have := List.mem_takeWhile_imp hm
    simp at this

/-! ### `schemeSplit` computation rules -/

theorem schemeChar_not_colon (c : Char) (h : schemeChar c = true) : (c == ':') = false := by
  rw [beq_eq_false_iff_ne]
  intro he
  rw [he] at h
  exact absurd h (by decide)

theorem schemeChar_not_unsafe (c : Char) (h : schemeChar c = true) :
    unsafeByte c = false := by
  rcases hb : unsafeByte c with _ | _
  · rfl
  · exfalso
    have h2 : (c = '\t' ∨ c = '\r') ∨ c = '\n' := by
      simpa [unsafeByte] using hb
    rcases h2 with (rfl | rfl) | rfl <;> exact absurd h (by decide)

theorem schemeSplit_run (c0 : Char) (pre w : List Char) (halpha : c0.isAlpha = true)
    (hall : ((c0 :: pre).all schemeChar) = true) :
    schemeSplit ((c0 :: pre) ++ ':' :: w) = some ((c0 :: pre).map Char.toLower, w) := by
  unfold schemeSplit
  rw [List.span_eq_take_drop]
  have hq : ∀ ch ∈ c0 :: pre, (fun c => !(c == ':')) ch = true := by
    intro ch hm
    have := List.all_eq_true.1 hall ch hm
    simp [schemeChar_not_colon ch this]
  rw [takeWhile_append_all _ (c0 :: pre) (':' :: w) hq,
    dropWhile_append_all _ (c0 :: pre) (':' :: w) hq,
    List.takeWhile_cons, List.dropWhile_cons]
  simp only [show ((!(':' == ':')) = true) = False by simp, if_false, List.append_nil]
  rw [if_pos ⟨halpha, hall⟩]

theorem schemeSplit_cons_not_alpha (x : Char) (l : List Char) (hx : x.isAlpha = false) :
    schemeSplit (x :: l) = none := by
  unfold schemeSplit
  rw [List.span_eq_take_drop, List.takeWhile_cons, List.dropWhile_cons]
  by_cases hq : (!(x == ':')) = true
  · rw [if_pos hq, if_pos hq]
    rcases hd : l.dropWhile (fun ch => !(ch == ':')) with _ | ⟨d, t⟩
    · rfl
    · dsimp only
      rw [if_neg (fun hc => by rw [hx] at hc; exact absurd hc.1 (by simp))]
  · have hq' : (!(x == ':')) = false := by simpa using hq
    rw [if_neg (show ¬((!(x == ':')) = true) by rw [hq']; simp),
      if_neg (show ¬((!(x == ':')) = true) by rw [hq']; simp)]

theorem schemeSplit_some_inv (l s0 r : List Char) (h : schemeSplit l = some (s0, r)) :
    ∃ c0 pre, l = (c0 :: pre) ++ ':' :: r ∧ c0.isAlpha = true ∧
      ((c0 :: pre).all schemeChar) = true ∧ s0 = (c0 :: pre).map Char.toLower := by
  unfold schemeSplit at h
  rw [List.span_eq_take_drop] at h
  rcases hd : l.dropWhile (fun ch => !(ch == ':')) with _ | ⟨d, t⟩ <;> rw [hd] at h
  · rcases ht : l.takeWhile (fun ch => !(ch == ':')) with _ | ⟨c0, pre⟩ <;>
      rw [ht] at h <;> simp at h
  · rcases ht : l.takeWhile (fun ch => !(ch == ':')) with _ | ⟨c0, pre⟩ <;> rw [ht] at h
    · simp at h
    · dsimp only at h
      by_cases hcond : c0.isAlpha = true ∧ ((c0 :: pre).all schemeChar) = true
      · rw [if_pos hcond] at h
        injection h with h2
        injection h2 with ha hb
        have hdcolon : d = ':' := by
          have := dropWhile_head_false _ l d t hd
          simpa using this
        refine ⟨c0, pre, ?_, hcond.1, hcond.2, ha.symm⟩
        conv_lhs => rw [← List.takeWhile_append_dropWhile
          (p := fun ch => !(ch == ':')) (l := l)]
        rw [ht, hd, hb, hdcolon]
      · rw [if_neg hcond] at h
        simp at h

theorem schemeSplit_none_of_prefix (l u : List Char) (h : schemeSplit l = none)
    (hu : u <+: l) : schemeSplit u = none := by
  rcases hss : schemeSplit u with _ | ⟨s0, r⟩
  · rfl
  · exfalso
    obtain ⟨c0, pre, hu_eq, halpha, hall, _⟩ := schemeSplit_some_inv u s0 r hss
    obtain ⟨ext, hext⟩ := hu
    have hl2 : schemeSplit l = some ((c0 :: pre).map Char.toLower, r ++ ext) := by
      rw [← hext, hu_eq, List.append_assoc]
      exact schemeSplit_run c0 pre (r ++ ext) halpha hall
    rw [hl2] at h
    exact absurd h (by simp)

/-! ### Preprocessing and `splitRest` computation under cleanliness -/

theorem preprocess_noop (v : List Char) (hch : ∀ ch ∈ v, unsafeByte ch = false)
    (hhd : v = [] ∨ c0Space v.headI = false) :
    (lstripP c0Space v).filter (fun ch => !unsafeByte ch) = v := by
  have h1 : lstripP c0Space v = v := by
    rcases v with _ | ⟨d, t⟩
    · rfl
    · rcases hhd with h | h
      · simp at h
      · show (d :: t).dropWhile c0Space = d :: t
        rw [List.dropWhile_cons]
        simp only [show c0Space d = false from h, Bool.false_eq_true, if_false]
  rw [h1]
  exact List.filter_eq_self.2 (fun a ha => by rw [hch a ha]; rfl)

theorem splitOnce_nil_parts (ch : Char) (x : List Char) (h : ch ∉ x) :
    splitOnce ch x = (x, []) := by
  unfold splitOnce
  have hall : ∀ a ∈ x, (fun c => !(c == ch)) a = true := by
    intro a ha
    simp only [Bool.not_eq_true']
    rw [beq_eq_false_iff_ne]
    intro he
    exact h (he ▸ ha)
  rw [List.takeWhile_eq_self_iff.2 hall, List.dropWhile_eq_nil_iff.2 hall]
  rfl

theorem splitRest_noslash (s2 rest : List Char) (h2 : ¬(rest.take 2 = ['/', '/']))
    (hh : '#' ∉ rest) (hq : '?' ∉ rest) :
    splitRest s2 rest = .ok (s2, [], rest, [], []) := by
  unfold splitRest
  rw [if_neg h2]
  simp only [splitOnce_nil_parts '#' rest hh, splitOnce_nil_parts '?' rest hq]

theorem splitRest_slash (s2 n2 tail : List Char)
    (hn : ∀ ch ∈ n2, netlocDelim ch = false)
    (hbr : bracketNetlocBad n2 = false)
    (htail : tail = [] ∨ ∃ t2, tail = '/' :: t2)
    (hh : '#' ∉ tail) (hq : '?' ∉ tail) :
    splitRest s2 ('/' :: '/' :: (n2 ++ tail)) = .ok (s2, n2, tail, [], []) := by
  unfold splitRest
  rw [if_pos (by rfl)]
  simp only [List.drop_succ_cons, List.drop_zero]
  have hnall : ∀ ch ∈ n2, (fun c => !netlocDelim c) ch = true := by
    intro ch hm
    simp [hn ch hm]
  have htk : (n2 ++ tail).takeWhile (fun c => !netlocDelim c) = n2 := by
    rcases htail with rfl | ⟨t2, rfl⟩
    · rw [List.append_nil]
      exact List.takeWhile_eq_self_iff.2 hnall
    · exact (takeWhile_append_cons _ n2 '/' t2 (by decide)).trans
        (List.takeWhile_eq_self_iff.2 hnall)
  have hdw : (n2 ++ tail).dropWhile (fun c => !netlocDelim c) = tail := by
    rcases htail with rfl | ⟨t2, rfl⟩
    · rw [List.append_nil]
      exact List.dropWhile_eq_nil_iff.2 hnall
    · rw [dropWhile_append_cons _ n2 '/' t2 (by decide),
        List.dropWhile_eq_nil_iff.2 hnall]
      rfl
  rw [htk, hdw, if_neg (show ¬(bracketNetlocBad n2 = true) by rw [hbr]; simp)]
  simp only [splitOnce_nil_parts '#' tail hh, splitOnce_nil_parts '?' tail hq]

/-! ### Inversion of `urlsplit`/`urlparse` success -/

theorem urlparse3_eq (url : List Char) :
    urlparse3 url =
      match (match schemeSplit ((lstripP c0Space url).filter (fun ch => !unsafeByte ch)) with
        | some (s0, r) => splitRest s0 r
        | none => splitRest [] ((lstripP c0Space url).filter (fun ch => !unsafeByte ch))) with
      | .error e => (.error e : Except Unit (List Char × List Char × List Char))
      | .ok (sc, nl, pa, _, _) =>
        if sc ∈ uses_params ∧ pa.contains ';' = true then .ok (sc, nl, (splitparams pa).1)
        else .ok (sc, nl, pa) := by
  unfold urlparse3
  rw [urlsplit_eq]

theorem delim_head_path (rest2 : List Char)
    (hshape : rest2 = [] ∨ ∃ d t, rest2 = d :: t ∧ netlocDelim d = true) :
    ((rest2.takeWhile (fun ch => !(ch == '#'))).takeWhile (fun ch => !(ch == '?'))) = [] ∨
      ∃ p2, ((rest2.takeWhile (fun ch => !(ch == '#'))).takeWhile
        (fun ch => !(ch == '?'))) = '/' :: p2 := by
  rcases hshape with rfl | ⟨d, t, rfl, hd⟩
  · left; rfl
  · have hd3 : d = '/' ∨ d = '?' ∨ d = '#' := by
      have : ((d == '/') || (d == '?') || (d == '#')) = true := hd
      rcases Bool.or_eq_true_iff.1 this with h | h
      · rcases Bool.or_eq_true_iff.1 h with h | h
        · exact Or.inl (by rwa [beq_iff_eq] at h)
        · exact Or.inr (Or.inl (by rwa [beq_iff_eq] at h))
      · exact Or.inr (Or.inr (by rwa [beq_iff_eq] at h))
    rcases hd3 with rfl | rfl | rfl
    · right
      rw [List.takeWhile_cons, if_pos (show (!('/' == '#')) = true by decide),
        List.takeWhile_cons, if_pos (show (!('/' == '?')) = true by decide)]
      exact ⟨_, rfl⟩
    · left
      rw [List.takeWhile_cons, if_pos (show (!('?' == '#')) = true by decide),
        List.takeWhile_cons,
        if_neg (show ¬((!('?' == '?')) = true) by decide)]
    · left
      rw [List.takeWhile_cons, if_neg (show ¬((!('#' == '#')) = true) by decide)]
      rfl

theorem splitRest_inv (s2 rest sc nl pa q f : List Char)
    (h : splitRest s2 rest = .ok (sc, nl, pa, q, f)) :
    sc = s2 ∧
    (∀ ch ∈ nl, netlocDelim ch = false) ∧
    bracketNetlocBad nl = false ∧
    (∀ ch ∈ nl, ch ∈ rest) ∧
    '#' ∉ pa ∧ '?' ∉ pa ∧
    (∀ ch ∈ pa, ch ∈ rest) ∧
    (rest.take 2 = ['/', '/'] → pa = [] ∨ ∃ p2, pa = '/' :: p2) ∧
    (¬(rest.take 2 = ['/', '/']) → pa <+: rest ∧ nl = []) := by
  unfold splitRest at h
  by_cases h2 : rest.take 2 = ['/', '/']
  · rw [if_pos h2] at h
    by_cases hbr : bracketNetlocBad ((rest.drop 2).takeWhile fun c => !netlocDelim c) = true
    · rw [if_pos hbr] at h
      simp at h
    · rw [if_neg hbr] at h
      simp only [splitOnce] at h
      injection h with h3
      injection h3 with hsc h4
      injection h4 with hnl h5
      injection h5 with hpa h6
      subst hsc
      subst hnl
      subst hpa
      refine ⟨rfl, ?_, Bool.not_eq_true _ ▸ (Bool.eq_false_iff.2 (fun hb => hbr hb)), ?_, ?_, ?_, ?_, ?_, fun hcon => absurd h2 hcon⟩
      · intro ch hm
        have := List.mem_takeWhile_imp hm
        simpa using this
      · intro ch hm
        exact List.drop_subset 2 rest ((List.takeWhile_prefix _).subset hm)
      · intro hm
        have := List.mem_takeWhile_imp ((List.takeWhile_prefix _).subset hm)
        simp at this
      · intro hm
        have := List.mem_takeWhile_imp hm
        simp at this
      · intro ch hm
        have h7 := (List.takeWhile_prefix (fun ch => !(ch == '#'))).subset
          ((List.takeWhile_prefix (fun ch => !(ch == '?'))).subset hm)
        have h8 := (List.dropWhile_suffix (fun c => !netlocDelim c)).subset h7
        exact List.drop_subset 2 rest h8
      · intro _
        apply delim_head_path
        rcases hr2 : (rest.drop 2).dropWhile (fun c => !netlocDelim c) with _ | ⟨d, t⟩
        · exact Or.inl rfl
        · refine Or.inr ⟨d, t, rfl, ?_⟩
          have := dropWhile_head_false _ (rest.drop 2) d t hr2
          simpa using this
  · rw [if_neg h2] at h
    simp only [splitOnce] at h
    injection h with h3
    injection h3 with hsc h4
    injection h4 with hnl h5
    injection h5 with hpa h6
    subst hsc
    subst hnl
    subst hpa
    refine ⟨rfl, by intro ch hm; simp at hm, by decide, by intro ch hm; simp at hm,
      ?_, ?_, ?_, fun hcon => absurd hcon h2, fun _ => ⟨?_, rfl⟩⟩
    · intro hm
      have := List.mem_takeWhile_imp ((List.takeWhile_prefix _).subset hm)
      simp at this
    · intro hm
      have := List.mem_takeWhile_imp hm
      simp at this
    · intro ch hm
      exact (List.takeWhile_prefix (fun ch => !(ch == '#'))).subset
        ((List.takeWhile_prefix (fun ch => !(ch == '?'))).subset hm)
    · exact (List.takeWhile_prefix _).trans (List.takeWhile_prefix _)

theorem params_step_inv (sc nl pa s n p : List Char)
    (hp : (if sc ∈ uses_params ∧ pa.contains ';' = true
        then (Except.ok (sc, nl, (splitparams pa).1) : Except Unit (List Char × List Char × List Char))
        else .ok (sc, nl, pa)) = .ok (s, n, p)) :
    s = sc ∧ n = nl ∧ p <+: pa ∧ (s ∈ uses_params → ';' ∉ lastSeg p) := by
  by_cases hcond : sc ∈ uses_params ∧ pa.contains ';' = true
  · rw [if_pos hcond] at hp
    injection hp with h2
    injection h2 with hs h3
    injection h3 with hn hpp
    exact ⟨hs.symm, hn.symm, hpp ▸ splitparams_fst_prefix pa,
      fun _ => hpp ▸ lastSeg_splitparams_no_semi pa⟩
  · rw [if_neg hcond] at hp
    injection hp with h2
    injection h2 with hs h3
    injection h3 with hn hpp
    refine ⟨hs.symm, hn.symm, hpp ▸ List.prefix_refl pa, fun hu hm => ?_⟩
    rw [← hpp] at hm
    exact hcond ⟨hs ▸ hu, (contains_iff_mem pa ';').2 (mem_lastSeg ';' pa hm)⟩

/-- The split parts of `urlunsplit3`-reassembly behave: the no-op of the
params step on a path whose last segment is `;`-free. -/
theorem params_step_eq (s2 n2 pa : List Char) (h : s2 ∈ uses_params → ';' ∉ lastSeg pa) :
    (if s2 ∈ uses_params ∧ pa.contains ';' = true
      then (Except.ok (s2, n2, (splitparams pa).1) : Except Unit (List Char × List Char × List Char))
      else .ok (s2, n2, pa)) = .ok (s2, n2, pa) := by
  by_cases hcond : s2 ∈ uses_params ∧ pa.contains ';' = true
  · rw [if_pos hcond, splitparams_fst_eq pa (h hcond.1)]
  · rw [if_neg hcond]

/-! ### The parse invariant -/

/-- Invariants of the `(scheme, netloc, path)` triple produced by a
successful `urlparse`. -/
structure ParseInv (s n p : List Char) : Prop where
  scheme_ok : s = [] ∨ ∃ c0 pre, s = c0 :: pre ∧ c0.isAlpha = true ∧
    ((c0 :: pre).all schemeChar) = true ∧ (c0 :: pre).map Char.toLower = c0 :: pre
  netloc_delim : ∀ ch ∈ n, netlocDelim ch = false
  netloc_unsafe : ∀ ch ∈ n, unsafeByte ch = false
  netloc_bracket : bracketNetlocBad n = false
  path_hash : '#' ∉ p
  path_quest : '?' ∉ p
  path_unsafe : ∀ ch ∈ p, unsafeByte ch = false
  path_params : s ∈ uses_params → ';' ∉ lastSeg p
  netloc_path : n ≠ [] → p = [] ∨ ∃ p2, p = '/' :: p2
  no_scheme : s = [] → schemeSplit p = none
  path_head : s = [] → n = [] → p = [] ∨ c0Space p.headI = false

theorem unsafe_c0 (ch : Char) (h : unsafeByte ch = true) : c0Space ch = true := by
  have h2 : (ch = '\t' ∨ ch = '\r') ∨ ch = '\n' := by simpa [unsafeByte] using h
  rcases h2 with (rfl | rfl) | rfl <;> decide

theorem shape_of_prefix (p pa : List Char) (hpre : p <+: pa)
    (hsh : pa = [] ∨ ∃ x, pa = '/' :: x) : p = [] ∨ ∃ x, p = '/' :: x := by
  rcases hsh with rfl | ⟨x, rfl⟩
  · left
    exact List.prefix_nil.1 hpre
  · rcases p with _ | ⟨ph, pt⟩
    · left; rfl
    · right
      rcases List.cons_prefix_cons.1 hpre with ⟨rfl, _⟩
      exact ⟨pt, rfl⟩

theorem headI_of_prefix (d : Char) (pt l : List Char) (h : d :: pt <+: l) :
    l.headI = d := by
  obtain ⟨ext, hext⟩ := h
  rw [← hext]
  rfl

theorem schemeSplit_nil : schemeSplit ([] : List Char) = none := rfl

theorem u2_facts (t : List Char) :
    (∀ ch ∈ (lstripP c0Space t).filter (fun ch => !unsafeByte ch), unsafeByte ch = false) ∧
    ((lstripP c0Space t).filter (fun ch => !unsafeByte ch) = [] ∨
      c0Space ((lstripP c0Space t).filter (fun ch => !unsafeByte ch)).headI = false) := by
  constructor
  · intro ch hm
    have := (List.mem_filter.1 hm).2
    simpa using this
  · rcases hw : lstripP c0Space t with _ | ⟨d, t2⟩
    · left
      rfl
    · have hd : c0Space d = false := dropWhile_head_false c0Space t d t2 hw
      have hdu : unsafeByte d = false := by
        rcases hu : unsafeByte d with _ | _
        · rfl
        · rw [unsafe_c0 d hu] at hd
          exact absurd hd (by simp)
      right
      rw [List.filter_cons, if_pos (show (!unsafeByte d) = true by rw [hdu]; rfl)]
      exact hd

theorem scheme_shape_of_some (c0 : Char) (pre : List Char)
    (halpha : c0.isAlpha = true) (hall : ((c0 :: pre).all schemeChar) = true) :
    ∃ d0 dpre, (c0 :: pre).map Char.toLower = d0 :: dpre ∧ d0.isAlpha = true ∧
      ((d0 :: dpre).all schemeChar) = true ∧
      (d0 :: dpre).map Char.toLower = d0 :: dpre := by
  refine ⟨c0.toLower, pre.map Char.toLower, by rw [List.map_cons],
    isAlpha_toLower c0 halpha, ?_, ?_⟩
  · rw [← List.map_cons]
    apply List.all_eq_true.2
    intro x hx
    rcases List.mem_map.1 hx with ⟨y, hy, rfl⟩
    exact schemeChar_toLower y (List.all_eq_true.1 hall y hy)
  · rw [← List.map_cons, List.map_map]
    exact List.map_congr_left (fun a _ => by
      show (Char.toLower ∘ Char.toLower) a = Char.toLower a
      exact toLower_toLower a)

theorem urlparse3_ok_inv (t s n p : List Char) (hp : urlparse3 t = .ok (s, n, p)) :
    ParseInv s n p := by
  rw [urlparse3_eq] at hp
  obtain ⟨hu2un, hu2hd⟩ := u2_facts t
  rcases hss : schemeSplit ((lstripP c0Space t).filter (fun ch => !unsafeByte ch))
    with _ | ⟨s0, r⟩ <;> rw [hss] at hp <;> dsimp only at hp
  · rcases hsr : splitRest [] ((lstripP c0Space t).filter (fun ch => !unsafeByte ch))
      with e | ⟨sc, nl, pa, q, f⟩ <;> rw [hsr] at hp
    · simp at hp
    · dsimp only at hp
      obtain ⟨hsc, hnd, hnb, hnsub, hph, hpq, hpsub, hshape, hnoslash⟩ :=
        splitRest_inv [] _ sc nl pa q f hsr
      obtain ⟨hs_eq, hn_eq, hppre, hI5⟩ := params_step_inv sc nl pa s n p hp
      have hsnil : s = [] := hs_eq.trans hsc
      refine ⟨Or.inl hsnil, ?_, ?_, by rw [hn_eq]; exact hnb, ?_, ?_, ?_, hI5, ?_, ?_, ?_⟩
      · intro ch hm
        rw [hn_eq] at hm
        exact hnd ch hm
      · intro ch hm
        rw [hn_eq] at hm
        exact hu2un ch (hnsub ch hm)
      · intro hm
        exact hph (hppre.subset hm)
      · intro hm
        exact hpq (hppre.subset hm)
      · intro ch hm
        exact hu2un ch (hpsub ch (hppre.subset hm))
      · intro hn
        rw [hn_eq] at hn
        by_cases h2 : ((lstripP c0Space t).filter (fun ch => !unsafeByte ch)).take 2
            = ['/', '/']
        · exact shape_of_prefix p pa hppre (hshape h2)
        · exact absurd (hnoslash h2).2 hn
      · intro _
        by_cases h2 : ((lstripP c0Space t).filter (fun ch => !unsafeByte ch)).take 2
            = ['/', '/']
        · rcases shape_of_prefix p pa hppre (hshape h2) with rfl | ⟨x, rfl⟩
          · exact schemeSplit_nil
          · exact schemeSplit_cons_not_alpha '/' x (by decide)
        · exact schemeSplit_none_of_prefix _ p hss (hppre.trans (hnoslash h2).1)
      · intro _ _
        by_cases h2 : ((lstripP c0Space t).filter (fun ch => !unsafeByte ch)).take 2
            = ['/', '/']
        · rcases shape_of_prefix p pa hppre (hshape h2) with rfl | ⟨x, rfl⟩
          · left; rfl
          · right
            exact (by decide : c0Space '/' = false)
        · rcases p with _ | ⟨d, pt⟩
          · left; rfl
          · right
            have hpfx := hppre.trans (hnoslash h2).1
            rcases hu2hd with h3 | h3
            · rw [h3] at hpfx
              exact absurd (List.prefix_nil.1 hpfx) (by simp)
            · rw [show ((d :: pt).headI) = d from rfl,
                ← headI_of_prefix d pt _ hpfx]
              exact h3
  · obtain ⟨c0, pre, hu2eq, halpha, hall, hs0⟩ := schemeSplit_some_inv _ s0 r hss
    rcases hsr : splitRest s0 r with e | ⟨sc, nl, pa, q, f⟩ <;> rw [hsr] at hp
    · simp at hp
    · dsimp only at hp
      obtain ⟨hsc, hnd, hnb, hnsub, hph, hpq, hpsub, hshape, hnoslash⟩ :=
        splitRest_inv s0 _ sc nl pa q f hsr
      obtain ⟨hs_eq, hn_eq, hppre, hI5⟩ := params_step_inv sc nl pa s n p hp
      have hs_full : s = (c0 :: pre).map Char.toLower := (hs_eq.trans hsc).trans hs0
      have hrsub : ∀ ch ∈ r, ch ∈ (lstripP c0Space t).filter (fun ch => !unsafeByte ch) := by
        intro ch hm
        rw [hu2eq]
        simp [hm]
      have hsne : s ≠ [] := by
        rw [hs_full, List.map_cons]
        simp
      refine ⟨?_, ?_, ?_, by rw [hn_eq]; exact hnb, ?_, ?_, ?_, hI5, ?_,
        fun h0 => absurd h0 hsne, fun h0 => absurd h0 hsne⟩
      · right
        obtain ⟨d0, dpre, he, h1, h2, h3⟩ := scheme_shape_of_some c0 pre halpha hall
        exact ⟨d0, dpre, hs_full.trans he, h1, h2, h3⟩
      · intro ch hm
        rw [hn_eq] at hm
        exact hnd ch hm
      · intro ch hm
        rw [hn_eq] at hm
        exact hu2un ch (hrsub ch (hnsub ch hm))
      · intro hm
        exact hph (hppre.subset hm)
      · intro hm
        exact hpq (hppre.subset hm)
      · intro ch hm
        exact hu2un ch (hrsub ch (hpsub ch (hppre.subset hm)))
      · intro hn
        rw [hn_eq] at hn
        by_cases h2 : r.take 2 = ['/', '/']
        · exact shape_of_prefix p pa hppre (hshape h2)
        · exact absurd (hnoslash h2).2 hn

/-! ### Reparsing a reassembled URL -/

theorem take1_slash (p : List Char) (h : p.take 1 = ['/']) : ∃ pt, p = '/' :: pt := by
  rcases p with _ | ⟨d, pt⟩
  · simp at h
  · rw [List.take_succ_cons, List.take_zero] at h
    injection h with h1 _
    exact ⟨pt, by rw [h1]⟩

theorem not_take1_slash (p : List Char) (hne : p ≠ []) (h : ¬(p.take 1 = ['/'])) :
    ∃ d pt, p = d :: pt ∧ d ≠ '/' := by
  rcases p with _ | ⟨d, pt⟩
  · exact absurd rfl hne
  · refine ⟨d, pt, rfl, fun hd => ?_⟩
    rw [hd] at h
    exact h (by rw [List.take_succ_cons, List.take_zero])

/-- Parsing a reassembled `scheme://netloc + path` URL recovers the triple,
under the parse invariants. -/
theorem parse_of_assembled (s n P : List Char)
    (hsch : s = [] ∨ ∃ c0 pre, s = c0 :: pre ∧ c0.isAlpha = true ∧
      ((c0 :: pre).all schemeChar) = true ∧ (c0 :: pre).map Char.toLower = c0 :: pre)
    (hnd : ∀ ch ∈ n, netlocDelim ch = false)
    (hnb : bracketNetlocBad n = false)
    (hnun : ∀ ch ∈ n, unsafeByte ch = false)
    (hPtail : P = [] ∨ ∃ t2, P = '/' :: t2)
    (hPh : '#' ∉ P) (hPq : '?' ∉ P)
    (hPun : ∀ ch ∈ P, unsafeByte ch = false)
    (hPI5 : s ∈ uses_params → ';' ∉ lastSeg P) :
    urlparse3 (if s ≠ [] then s ++ ':' :: ('/' :: '/' :: (n ++ P))
      else '/' :: '/' :: (n ++ P)) = .ok (s, n, P) := by
  have hurl_un : ∀ ch ∈ '/' :: '/' :: (n ++ P), unsafeByte ch = false := by
    intro ch hm
    rcases List.mem_cons.1 hm with rfl | hm2
    · decide
    · rcases List.mem_cons.1 hm2 with rfl | hm3
      · decide
      · rcases List.mem_append.1 hm3 with h4 | h4
        · exact hnun ch h4
        · exact hPun ch h4
  have hsr : splitRest s ('/' :: '/' :: (n ++ P)) = .ok (s, n, P, [], []) :=
    splitRest_slash s n P hnd hnb hPtail hPh hPq
  rcases hsch with rfl | ⟨c0, pre, hse, halpha, hall, hlow⟩
  · rw [if_neg (show ¬(([] : List Char) ≠ []) by simp)]
    rw [urlparse3_eq,
      preprocess_noop _ hurl_un (Or.inr (by exact (by decide : c0Space '/' = false))),
      schemeSplit_cons_not_alpha '/' _ (by decide)]
    dsimp only
    rw [hsr]
    dsimp only
    exact params_step_eq [] n P hPI5
  · subst hse
    have hsun2 : ∀ ch ∈ (c0 :: pre) ++ ':' :: ('/' :: '/' :: (n ++ P)),
        unsafeByte ch = false := by
      intro ch hm
      rcases List.mem_append.1 hm with h4 | h4
      · exact schemeChar_not_unsafe ch (List.all_eq_true.1 hall ch h4)
      · rcases List.mem_cons.1 h4 with rfl | h5
        · decide
        · exact hurl_un ch h5
    rw [if_pos (show (c0 :: pre) ≠ [] by simp)]
    rw [urlparse3_eq,
      preprocess_noop _ hsun2 (Or.inr (isAlpha_not_c0Space c0 halpha)),
      schemeSplit_run c0 pre _ halpha hall, hlow]
    dsimp only
    rw [hsr]
    dsimp only
    exact params_step_eq (c0 :: pre) n P hPI5

/-- Parsing a reassembled `scheme:path` URL (no netloc reinserted) recovers
the triple, under the parse invariants. -/
theorem parse_of_plain (s p : List Char)
    (hsch : s = [] ∨ ∃ c0 pre, s = c0 :: pre ∧ c0.isAlpha = true ∧
      ((c0 :: pre).all schemeChar) = true ∧ (c0 :: pre).map Char.toLower = c0 :: pre)
    (ht2 : ¬(p.take 2 = ['/', '/']))
    (hph : '#' ∉ p) (hpq : '?' ∉ p)
    (hpun : ∀ ch ∈ p, unsafeByte ch = false)
    (hI5 : s ∈ uses_params → ';' ∉ lastSeg p)
    (hnos : s = [] → schemeSplit p = none)
    (hhd : s = [] → p = [] ∨ c0Space p.headI = false) :
    urlparse3 (if s ≠ [] then s ++ ':' :: p else p) = .ok (s, [], p) := by
  rcases hsch with rfl | ⟨c0, pre, hse, halpha, hall, hlow⟩
  · rw [if_neg (show ¬(([] : List Char) ≠ []) by simp)]
    rw [urlparse3_eq, preprocess_noop p hpun (hhd rfl), hnos rfl]
    dsimp only
    rw [splitRest_noslash [] p ht2 hph hpq]
    dsimp only
    exact params_step_eq [] [] p hI5
  · subst hse
    have hall_un : ∀ ch ∈ (c0 :: pre) ++ ':' :: p, unsafeByte ch = false := by
      intro ch hm
      rcases List.mem_append.1 hm with h4 | h4
      · exact schemeChar_not_unsafe ch (List.all_eq_true.1 hall ch h4)
      · rcases List.mem_cons.1 h4 with rfl | h5
        · decide
        · exact hpun ch h5
    rw [if_pos (show (c0 :: pre) ≠ [] by simp)]
    rw [urlparse3_eq,
      preprocess_noop _ hall_un (Or.inr (isAlpha_not_c0Space c0 halpha)),
      schemeSplit_run c0 pre p halpha hall, hlow]
    dsimp only
    rw [splitRest_noslash (c0 :: pre) p ht2 hph hpq]
    dsimp only
    exact params_step_eq (c0 :: pre) [] p hI5

theorem reparse_core (s n p : List Char) (inv : ParseInv s n p)
    (hnp : ¬(n = [] ∧ p.take 2 = ['/', '/'])) (c₂ : List Char × List Char × List Char)
    (h₂ : urlparse3 (urlunsplit3 s n p) = .ok c₂) :
    urlunsplit3 c₂.1 c₂.2.1 c₂.2.2 = urlunsplit3 s n p := by
  by_cases hB : n ≠ [] ∨ (s ≠ [] ∧ s ∈ uses_netloc ∧ p.take 2 ≠ ['/', '/'])
  · by_cases hins : p ≠ [] ∧ p.take 1 ≠ ['/']
    · have hn_nil : n = [] := by
        by_contra hn
        rcases inv.netloc_path hn with h0 | ⟨p2, h0⟩
        · exact hins.1 h0
        · rw [h0] at hins
          exact hins.2 (by rw [List.take_succ_cons, List.take_zero])
      subst hn_nil
      have hv : urlunsplit3 s [] p =
          (if s ≠ [] then s ++ ':' :: ('/' :: '/' :: ([] ++ ('/' :: p)))
           else '/' :: '/' :: ([] ++ ('/' :: p))) := by
        simp only [urlunsplit3]
        rw [if_pos hB, if_pos hins]
      have hparse := parse_of_assembled s [] ('/' :: p) inv.scheme_ok inv.netloc_delim
        inv.netloc_bracket inv.netloc_unsafe (Or.inr ⟨p, rfl⟩)
        (by
          intro hm
          rcases List.mem_cons.1 hm with he | hm2
          · exact absurd he (by decide)
          · exact inv.path_hash hm2)
        (by
          intro hm
          rcases List.mem_cons.1 hm with he | hm2
          · exact absurd he (by decide)
          · exact inv.path_quest hm2)
        (by
          intro ch hm
          rcases List.mem_cons.1 hm with rfl | hm2
          · decide
          · exact inv.path_unsafe ch hm2)
        (fun hu => by rw [lastSeg_cons_slash]; exact inv.path_params hu)
      rw [hv, hparse] at h₂
      injection h₂ with hc2
      rw [← hc2]
      show urlunsplit3 s [] ('/' :: p) = urlunsplit3 s [] p
      have hB2 : ([] : List Char) ≠ [] ∨ (s ≠ [] ∧ s ∈ uses_netloc ∧
          ('/' :: p).take 2 ≠ ['/', '/']) := by
        rcases hB with hB1 | ⟨h1, h2, h3⟩
        · exact absurd rfl hB1
        · refine Or.inr ⟨h1, h2, ?_⟩
          rw [List.take_succ_cons]
          intro he
          injection he with _ he2
          exact hins.2 he2
      simp only [urlunsplit3]
      rw [if_pos hB2, if_pos hB,
        if_neg (show ¬(('/' :: p) ≠ [] ∧ ('/' :: p).take 1 ≠ ['/']) by
          intro hcon
          exact hcon.2 (by rw [List.take_succ_cons, List.take_zero])),
        if_pos hins]
    · have hpsh : p = [] ∨ ∃ t2, p = '/' :: t2 := by
        by_cases hpnil : p = []
        · exact Or.inl hpnil
        · right
          by_cases ht1 : p.take 1 = ['/']
          · exact take1_slash p ht1
          · exact absurd ⟨hpnil, ht1⟩ hins
      have hv : urlunsplit3 s n p =
          (if s ≠ [] then s ++ ':' :: ('/' :: '/' :: (n ++ p))
           else '/' :: '/' :: (n ++ p)) := by
        simp only [urlunsplit3]
        rw [if_pos hB, if_neg hins]
      have hparse := parse_of_assembled s n p inv.scheme_ok inv.netloc_delim
        inv.netloc_bracket inv.netloc_unsafe hpsh inv.path_hash inv.path_quest
        inv.path_unsafe inv.path_params
      rw [hv, hparse] at h₂
      injection h₂ with hc2
      rw [← hc2]
  · have hn_nil : n = [] := by
      by_contra hn
      exact hB (Or.inl hn)
    subst hn_nil
    have ht2 : ¬(p.take 2 = ['/', '/']) := fun h => hnp ⟨rfl, h⟩
    have hv : urlunsplit3 s [] p = (if s ≠ [] then s ++ ':' :: p else p) := by
      simp only [urlunsplit3]
      rw [if_neg hB]
    have hparse := parse_of_plain s p inv.scheme_ok ht2 inv.path_hash inv.path_quest
      inv.path_unsafe inv.path_params inv.no_scheme (fun hs => inv.path_head hs rfl)
    rw [hv, hparse] at h₂
    injection h₂ with hc2
    rw [← hc2]

/-! ### Idempotence of `_normalize_url` -/

/-- The parsed path does not itself begin with `//` while the netloc is
empty.  On such degenerate inputs (runs of four or more slashes after the
scheme) `urlunparse` and `urlparse` are not mutually inverse and repeated
normalization keeps shortening the URL. -/
def pathShapeOk (u : String) : Bool :=
  match urlparse3 (pyStrip u.toList) with
  | .ok (_, n2, p2) => !(n2 == ([] : List Char) && p2.take 2 == ['/', '/'])
  | .error _ => true

theorem normalize_idempotent_aux (u : String)
    (hfix : pyStrip (_normalize_url u).toList = (_normalize_url u).toList)
    (hshape : pathShapeOk u = true) :
    _normalize_url (_normalize_url u) = _normalize_url u := by
  by_cases ht0 : pyStrip u.toList = []
  · have h1 : _normalize_url u = "" := by
      simp only [_normalize_url]
      rw [if_pos ht0]
    rw [h1]
    decide
  · rcases hpar : urlparse3 (pyStrip u.toList) with e | ⟨s, n, p⟩
    · have h1 : _normalize_url u = String.mk (pyStrip u.toList) := by
        simp only [_normalize_url]
        rw [if_neg ht0, hpar]
      have hfix2 : pyStrip (pyStrip u.toList) = pyStrip u.toList := by
        rw [h1] at hfix
        exact hfix
      rw [h1, normalize_mk_eq (pyStrip u.toList),
        if_neg (by rw [hfix2]; exact ht0), hfix2, hpar]
    · have inv := urlparse3_ok_inv (pyStrip u.toList) s n p hpar
      have hnp : ¬(n = [] ∧ p.take 2 = ['/', '/']) := by
        intro hcon
        unfold pathShapeOk at hshape
        rw [hpar] at hshape
        dsimp only at hshape
        rw [hcon.1, hcon.2] at hshape
        simp at hshape
      have h1 : _normalize_url u = String.mk (urlunsplit3 s n p) := by
        simp only [_normalize_url]
        rw [if_neg ht0, hpar]
      have hfix2 : pyStrip (urlunsplit3 s n p) = urlunsplit3 s n p := by
        rw [h1] at hfix
        exact hfix
      by_cases hv0 : urlunsplit3 s n p = []
      · rw [h1, hv0]
        rfl
      · rw [h1, normalize_mk_eq (urlunsplit3 s n p),
          if_neg (by rw [hfix2]; exact hv0), hfix2]
        rcases hpar2 : urlparse3 (urlunsplit3 s n p) with e2 | ⟨s2, n2, p2⟩
        · rfl
        · exact congrArg String.mk (reparse_core s n p inv hnp (s2, n2, p2) hpar2)

/-- Counterexample to **C5**: `_normalize_url` is not idempotent and does not
always identify URLs that differ only in query/fragment.  A space kept inside
the path survives the first normalization as a trailing space and is stripped
by the second; with an empty netloc and a path starting `//` re-parsing
swallows two slashes per round; the trailing-space URL with and without a
query normalize differently; and on mismatched-bracket netlocs `urlparse`
raises, so the stripped input is returned with its query intact. -/
theorem normalize_counterexample :
    (_normalize_url (_normalize_url "http://h/a ?q") ≠ _normalize_url "http://h/a ?q") ∧
    (_normalize_url (_normalize_url "http://////y") ≠ _normalize_url "http://////y") ∧
    (_normalize_url "http://h/a " ≠ _normalize_url "http://h/a ?q") ∧
    (_normalize_url "http://[x/a?q1" ≠ _normalize_url "http://[x/a?q2") :=
  ⟨by decide, by decide, by decide, by decide⟩

/-- **C5** (amended): `_normalize_url` is idempotent on every URL whose
normalized form has no leading/trailing Python whitespace and whose parsed
path does not begin with `//` while the netloc is empty; and it maps URLs
that differ only from the first `?` or `#` separator onward to the same key:
two URLs sharing everything before such a separator normalize identically
whenever parsing does not raise, and appending `?query` or `#fragment` to a
URL with no trailing whitespace does not change its key. -/
theorem normalize_idempotent_query_invariant :
    (∀ u : String,
        pyStrip (_normalize_url u).toList = (_normalize_url u).toList →
        pathShapeOk u = true →
        _normalize_url (_normalize_url u) = _normalize_url u) ∧
    (∀ (b r₁ r₂ : List Char) (c₁ c₂ : Char),
        (c₁ = '?' ∨ c₁ = '#') → (c₂ = '?' ∨ c₂ = '#') →
        (urlparse3 (pyStrip (b ++ c₁ :: r₁))).isOk = true →
        _normalize_url (String.mk (b ++ c₁ :: r₁)) =
          _normalize_url (String.mk (b ++ c₂ :: r₂))) ∧
    (∀ (b r : List Char) (c : Char),
        (c = '?' ∨ c = '#') → rstripP pySpace b = b →
        (urlparse3 (pyStrip b)).isOk = true →
        _normalize_url (String.mk b) = _normalize_url (String.mk (b ++ c :: r))) :=
  ⟨fun u h1 h2 => normalize_idempotent_aux u h1 h2,
    fun b r₁ r₂ c₁ c₂ h₁ h₂ hok => query_fragment_invariance_aux b r₁ r₂ c₁ c₂ h₁ h₂ hok,
    fun b r c hc hb hok => bare_append_sep_aux b r c hc hb hok⟩

/-- Witness for C5 at concrete URLs: a well-formed story URL is a fixed
point of normalization, and query/fragment variants of one URL share a key. -/
theorem normalize_idempotent_query_invariant_witness :
    (pyStrip (_normalize_url "https://example.com/a/story?utm_source=x").toList =
        (_normalize_url "https://example.com/a/story?utm_source=x").toList ∧
      pathShapeOk "https://example.com/a/story?utm_source=x" = true ∧
      _normalize_url (_normalize_url "https://example.com/a/story?utm_source=x") =
        _normalize_url "https://example.com/a/story?utm_source=x") ∧
    (_normalize_url (String.mk ("https://example.com/story".toList ++ '?' :: "utm=1".toList)) =
      _normalize_url (String.mk ("https://example.com/story".toList ++ '#' :: "frag".toList))) ∧
    (_normalize_url (String.mk "https://example.com/story".toList) =
      _normalize_url (String.mk ("https://example.com/story".toList ++ '?' :: "q=2".toList))) :=
  ⟨⟨by decide, by decide,
      normalize_idempotent_query_invariant.1 "https://example.com/a/story?utm_source=x"
        (by decide) (by decide)⟩,
    normalize_idempotent_query_invariant.2.1 "https://example.com/story".toList
      "utm=1".toList "frag".toList '?' '#' (Or.inl rfl) (Or.inr rfl) (by decide),
    normalize_idempotent_query_invariant.2.2 "https://example.com/story".toList
      "q=2".toList '?' (Or.inl rfl) (by decide) (by decide)⟩

end UrlNorm

/-! ## Dedup store — `src/cache_manager.py` `CacheManager` -/

namespace CacheManager

/-- `MAX_CACHE_SIZE`. -/
def MAX_CACHE_SIZE : Nat := 10000

/-- The in-memory state: `self.seen`, a set of normalized keys modelled as a
duplicate-free list in iteration order. -/
structure CMState where
  seen : List String
deriving DecidableEq, Repr

/-- `mark_seen`: add the normalized key when it is non-empty (set semantics:
adding a present key changes nothing). -/
def mark_seen (st : CMState) (url : String) : CMState :=
  let key := UrlNorm._normalize_url url
  if key ≠ "" ∧ key ∉ st.seen then ⟨st.seen ++ [key]⟩ else st

/-- A sequence of `mark_seen` calls. -/
def applyMarks (st : CMState) (urls : List String) : CMState :=
  urls.foldl mark_seen st

/-- `save`: trim the set to its last `MAX_CACHE_SIZE` elements when over the
cap, then write the sorted entries.  `writeOk = false` models an I/O error at
the write; the `except` clause logs and returns, so the model returns the
(trimmed) state and `none` instead of raising. -/
def save (st : CMState) (writeOk : Bool) : CMState × Option (List String) :=
  let trimmed :=
    if MAX_CACHE_SIZE < st.seen.length then st.seen.drop (st.seen.length - MAX_CACHE_SIZE)
    else st.seen
  if writeOk then (⟨trimmed⟩, some (trimmed.insertionSort (fun a b => a ≤ b)))
  else (⟨trimmed⟩, none)

/-- Unfolding lemma for `save`. -/
theorem save_unfold (st : CMState) (w : Bool) :
    save st w =
      (⟨if MAX_CACHE_SIZE < st.seen.length then
          st.seen.drop (st.seen.length - MAX_CACHE_SIZE) else st.seen⟩,
        if w then
          some ((if MAX_CACHE_SIZE < st.seen.length then
            st.seen.drop (st.seen.length - MAX_CACHE_SIZE)
          else st.seen).insertionSort (fun a b => a ≤ b))
        else none) := by
  cases w <;> rfl

/-- Unfolding lemma for the in-memory side of `save`. -/
theorem save_seen (st : CMState) (w : Bool) :
    (save st w).1.seen =
      if MAX_CACHE_SIZE < st.seen.length then
        st.seen.drop (st.seen.length - MAX_CACHE_SIZE)
      else st.seen := by
  cases w <;> rfl

/-! ### Claim C6 -/

/-- **C6**: for every starting state and every sequence of `mark_seen` calls,
after `save()` completes (successfully or not) the in-memory seen set, and the
persisted store when the write succeeds, contain at most
`MAX_CACHE_SIZE = 10000` entries. -/
theorem save_bounds_cache (init : CMState) (urls : List String) (writeOk : Bool) :
    ((save (applyMarks init urls) writeOk).1.seen.length ≤ MAX_CACHE_SIZE) ∧
      (∀ w, (save (applyMarks init urls) writeOk).2 = some w →
        w.length ≤ MAX_CACHE_SIZE) := by
  set st := applyMarks init urls
  have htrim : (if MAX_CACHE_SIZE < st.seen.length then
      st.seen.drop (st.seen.length - MAX_CACHE_SIZE) else st.seen).length ≤ MAX_CACHE_SIZE := by
    by_cases h : MAX_CACHE_SIZE < st.seen.length
    · rw [if_pos h, List.length_drop]
      omega
    · rw [if_neg h]
      omega
  constructor
  · rw [save_unfold]
    exact htrim
  · intro w hw
    rw [save_unfold] at hw
    cases writeOk
    · simp at hw
    · simp only [if_true] at hw
      have hw2 := Option.some.inj hw
      rw [← hw2, (List.perm_insertionSort (fun a b : String => a ≤ b) _).length_eq]
      exact htrim

/-! ### Claim C7 -/

/-- **C7 (as stated) is false**: on a state holding 10001 distinct keys, a
failed write does not leave the in-memory set unchanged — `save` trims the set
to the cap before attempting the write, so the key `"a"` is lost even though
nothing was persisted. -/
theorem save_failure_counterexample :
    ((save ⟨"a" :: (List.range 10000).map (fun n => String.mk (List.replicate (n + 2) 'a'))⟩
        false).1.seen ≠
      "a" :: (List.range 10000).map (fun n => String.mk (List.replicate (n + 2) 'a'))) ∧
      ("a" ∈ ("a" :: (List.range 10000).map (fun n => String.mk (List.replicate (n + 2) 'a')))) ∧
      ("a" ∉ (save ⟨"a" :: (List.range 10000).map
          (fun n => String.mk (List.replicate (n + 2) 'a'))⟩ false).1.seen) := by
  have hlen : ("a" :: (List.range 10000).map
      (fun n => String.mk (List.replicate (n + 2) 'a'))).length = 10001 := by
    rw [List.length_cons, List.length_map, List.length_range]
  have hcond : MAX_CACHE_SIZE <
      ("a" :: (List.range 10000).map (fun n => String.mk (List.replicate (n + 2) 'a'))).length := by
    rw [hlen, MAX_CACHE_SIZE]
    omega
  have hseen : (save ⟨"a" :: (List.range 10000).map
      (fun n => String.mk (List.replicate (n + 2) 'a'))⟩ false).1.seen =
      (List.range 10000).map (fun n => String.mk (List.replicate (n + 2) 'a')) := by
    rw [save_seen, if_pos hcond, hlen]
    have h1 : 10001 - MAX_CACHE_SIZE = 1 := by rw [MAX_CACHE_SIZE]
    rw [h1]
    rfl
  have hnotmem : "a" ∉ (List.range 10000).map (fun n => String.mk (List.replicate (n + 2) 'a')) := by
    intro hmem
    rcases List.mem_map.1 hmem with ⟨n, _, heq⟩
    have : ("a" : String).length = 1 := rfl
    rw [← heq] at this
    simp [String.length] at this
  refine ⟨?_, List.mem_cons_self _ _, ?_⟩
  · rw [hseen]
    intro hcontra
    exact hnotmem (hcontra ▸ List.mem_cons_self _ _)
  · rw [hseen]
    exact hnotmem

/-- **C7 (amended)**: when the in-memory set is within the cap — in particular
in every state the trimming has ever been applied to — a failed write leaves
the in-memory seen set exactly as it was (and `save` returns normally rather
than raising: the model's `save` is a total function whose `except` branch
yields `none` as the written content). -/
theorem save_failure_preserves_state (st : CMState)
    (hle : st.seen.length ≤ MAX_CACHE_SIZE) :
    (save st false).1 = st ∧ (save st false).2 = none := by
  rw [save_unfold]
  rw [if_neg (by omega : ¬MAX_CACHE_SIZE < st.seen.length)]
  exact ⟨rfl, rfl⟩

/-- Witness for the amended C7 at a concrete state. -/
theorem save_failure_preserves_state_witness :
    (CMState.mk ["k"]).seen.length ≤ MAX_CACHE_SIZE ∧
      ((save ⟨["k"]⟩ false).1 = ⟨["k"]⟩ ∧ (save ⟨["k"]⟩ false).2 = none) :=
  ⟨by decide, save_failure_preserves_state ⟨["k"]⟩ (by decide)⟩

end CacheManager

/-! ## Community matching — `src/scraper.py` -/

namespace Scraper

/-- `str.strip()` on a `String`. -/
def pyStripS (s : String) : String := String.mk (UrlNorm.pyStrip s.toList)

/-- A word character of the regex class `\w`. -/
def isWordChar (c : Char) : Bool := c.isAlphanum || c == '_'

/-- Whether position `i` of `text` holds a word character (out of bounds
counts as non-word). -/
def wordAt (text : List Char) (i : Nat) : Bool :=
  match text.get? i with
  | some c => isWordChar c
  | none => false

/-- The zero-width `\b` assertion at position `i` (between `text[i-1]` and
`text[i]`): exactly one of the two sides is a word character. -/
def boundaryAt (text : List Char) (i : Nat) : Bool :=
  (if i = 0 then false else wordAt text (i - 1)) != wordAt text i

/-- The literal pattern `pat` matches `text` at position `i`. -/
def matchAt (pat text : List Char) (i : Nat) : Bool :=
  (text.drop i).take pat.length == pat

/-- `re.search(r'\b' + re.escape(pat) + r'\b', text) is not None`: the escaped
pattern is a literal, so a match is a literal occurrence flanked by word
boundaries. -/
def wbSearch (pat text : List Char) : Bool :=
  (List.range (text.length + 1)).any fun i =>
    matchAt pat text i && boundaryAt text i && boundaryAt text (i + pat.length)

/-- String-level `re.search` with word boundaries. -/
def wbContains (pat text : String) : Bool := wbSearch pat.toList text.toList

/-- Python substring test `pat in text`. -/
def pySubstr (pat text : String) : Bool :=
  (List.range (text.toList.length + 1)).any fun i => matchAt pat.toList text.toList i

/-- A feed entry at the matcher's input edge.  `summary_plain` is the output
of `strip_html` on the raw summary (HTML stripping is the feed-parsing
collaborator's job and is not modelled); `pub_ts` is the parsed
`published_parsed` timestamp (`get_pub_datetime`), `none` when missing or
unparseable. -/
structure Entry where
  link : Option String := none
  title : String := ""
  summary_plain : String := ""
  author : String := ""
  pub_ts : Option Int := none
deriving DecidableEq, Repr

/-- `is_syndicated_from`: byline phrases are searched as plain substrings in
the lower-cased author and in the first 200 characters of the plain summary
plus the title. -/
def is_syndicated_from (e : Entry) (exclude_list : List String) : Bool :=
  if exclude_list = [] then false
  else
    let author := lowerS (pyStripS e.author)
    let title := pyStripS e.title
    let summary_plain := pyStripS e.summary_plain
    let byline_zone := lowerS (takeS summary_plain 200 ++ " " ++ title)
    exclude_list.any fun phrase =>
      if pyStripS phrase = "" then false
      else
        let p := lowerS (pyStripS phrase)
        pySubstr p author || pySubstr p byline_zone

/-- `is_priority_source`. -/
def is_priority_source (feed_url : String) (priority_sources : List String) : Bool :=
  if priority_sources = [] then false
  else priority_sources.any fun priority => pySubstr (lowerS priority) (lowerS feed_url)

/-- The lower-cased `title + " " + summary_plain` that the community patterns
are searched in. -/
def combinedText (e : Entry) : String :=
  lowerS (pyStripS e.title ++ " " ++ pyStripS e.summary_plain)

/-- One iteration of the `for community in communities` loop: skip on no
whole-word match, skip on a whole-word exclusion-phrase hit, otherwise append
the community and latch `match_location` on its first assignment. -/
def matchStep (community_exclusions : String → List String)
    (combined title_lower : String) (acc : List String × Option String)
    (community : String) : List String × Option String :=
  if wbContains (lowerS community) combined then
    if (community_exclusions community).any
        (fun phrase => wbContains (lowerS phrase) combined) then acc
    else
      (acc.1 ++ [community],
        match acc.2 with
        | some l => some l
        | none =>
          if wbContains (lowerS community) title_lower then some "title"
          else some "summary")
  else acc

/-- The age filter `max_age_hours and pub_datetime and age > timedelta(...)`:
`now` and the timestamp are in seconds. -/
def tooOld (now : Int) (max_age_hours : Option Int) (pub_ts : Option Int) : Prop :=
  match max_age_hours, pub_ts with
  | some h, some ts => h ≠ 0 ∧ h * 3600 < now - ts
  | _, _ => False

instance : ∀ now mah ts, Decidable (tooOld now mah ts) := fun now mah ts => by
  unfold tooOld
  cases mah <;> cases ts <;> infer_instance

/-- `check_entry_matches`.  `cache` is the dedup store; `sourceName` stands
for the pure display-name helper `extract_source_name`, whose value never
influences control flow. -/
def check_entry_matches (entry : Entry) (communities : List String)
    (cache : CacheManager.CMState) (feed_url : String) (now : Int)
    (max_age_hours : Option Int) (priority_sources : List String)
    (community_exclusions : String → List String)
    (exclude_syndicated_from : List String)
    (sourceName : String → String) : Option Article :=
  match entry.link with
  | none => none
  | some link =>
    if UrlNorm._normalize_url link ∈ cache.seen then none
    else if tooOld now max_age_hours entry.pub_ts then none
    else if exclude_syndicated_from ≠ [] ∧ is_syndicated_from entry exclude_syndicated_from then
      none
    else
      let title := pyStripS entry.title
      let summary_plain := pyStripS entry.summary_plain
      let title_lower := lowerS title
      let combined := combinedText entry
      let scan := communities.foldl (matchStep community_exclusions combined title_lower)
        ([], none)
      if scan.1 = [] then none
      else some
        { title := title
          pub_ts := entry.pub_ts
          is_priority := is_priority_source feed_url priority_sources
          communities := scan.1
          link := link
          source := sourceName feed_url
          excerpt := if summary_plain ≠ "" then summary_plain else title
          match_location := scan.2.getD "summary"
          urgency := ""
          ai_summary := none }

/-! ### The community scan -/

/-- Spec-side view of the scan: the communities that match as whole words and
have no whole-word exclusion-phrase hit, in configuration order. -/
def survivors (community_exclusions : String → List String) (combined : String)
    (comms : List String) : List String :=
  comms.filter fun com =>
    wbContains (lowerS com) combined &&
      !(community_exclusions com).any (fun phrase => wbContains (lowerS phrase) combined)

theorem foldl_matchStep_fst (excl : String → List String) (combined title_lower : String) :
    ∀ (comms : List String) (acc : List String × Option String),
      (comms.foldl (matchStep excl combined title_lower) acc).1 =
        acc.1 ++ survivors excl combined comms
  | [], acc => by simp [survivors]
  | com :: rest, acc => by
    rw [List.foldl_cons, foldl_matchStep_fst excl combined title_lower rest]
    rw [matchStep]
    by_cases h1 : wbContains (lowerS com) combined
    · by_cases h2 : (excl com).any (fun phrase => wbContains (lowerS phrase) combined)
      · rw [if_pos h1, if_pos h2]
        simp [survivors, h1, h2]
      · rw [if_pos h1, if_neg h2]
        simp [survivors, h1, h2]
    · rw [if_neg h1]
      simp [survivors, h1]

theorem foldl_matchStep_snd_some (excl : String → List String)
    (combined title_lower : String) (l : String) :
    ∀ (comms : List String) (acc : List String × Option String), acc.2 = some l →
      (comms.foldl (matchStep excl combined title_lower) acc).2 = some l
  | [], _, h => h
  | com :: rest, acc, h => by
    rw [List.foldl_cons]
    refine foldl_matchStep_snd_some excl combined title_lower l rest _ ?_
    rw [matchStep]
    by_cases h1 : wbContains (lowerS com) combined
    · by_cases h2 : (excl com).any (fun phrase => wbContains (lowerS phrase) combined)
      · rw [if_pos h1, if_pos h2]
        exact h
      · rw [if_pos h1, if_neg h2, h]
    · rw [if_neg h1]
      exact h

theorem foldl_matchStep_snd (excl : String → List String) (combined title_lower : String) :
    ∀ (comms : List String),
      (comms.foldl (matchStep excl combined title_lower) ([], none)).2 =
        match survivors excl combined comms with
        | [] => none
        | c :: _ => some (if wbContains (lowerS c) title_lower then "title" else "summary")
  | [] => by simp [survivors]
  | com :: rest => by
    rw [List.foldl_cons, matchStep]
    by_cases h1 : wbContains (lowerS com) combined
    · by_cases h2 : (excl com).any (fun phrase => wbContains (lowerS phrase) combined)
      · rw [if_pos h1, if_pos h2]
        have hs : survivors excl combined (com :: rest) = survivors excl combined rest := by
          simp [survivors, h1, h2]
        rw [hs]
        exact foldl_matchStep_snd excl combined title_lower rest
      · rw [if_pos h1, if_neg h2]
        have hs : survivors excl combined (com :: rest) =
            com :: survivors excl combined rest := by
          simp [survivors, h1, h2]
        rw [hs]
        refine foldl_matchStep_snd_some excl combined title_lower _ rest _ ?_
        by_cases h3 : wbContains (lowerS com) title_lower <;> simp [h3]
    · rw [if_neg h1]
      have hs : survivors excl combined (com :: rest) = survivors excl combined rest := by
        simp [survivors, h1]
      rw [hs]
      exact foldl_matchStep_snd excl combined title_lower rest

/-- Destructed form of a successful `check_entry_matches`. -/
theorem check_entry_matches_some {entry : Entry} {communities : List String}
    {cache : CacheManager.CMState} {feed_url : String} {now : Int}
    {max_age_hours : Option Int} {priority_sources : List String}
    {community_exclusions : String → List String} {exclude_syndicated_from : List String}
    {sourceName : String → String} {r : Article}
    (hr : check_entry_matches entry communities cache feed_url now max_age_hours
      priority_sources community_exclusions exclude_syndicated_from sourceName = some r) :
    r.communities = survivors community_exclusions (combinedText entry) communities ∧
      r.match_location =
        (match survivors community_exclusions (combinedText entry) communities with
          | [] => "summary"
          | c :: _ =>
            if wbContains (lowerS c) (lowerS (pyStripS entry.title)) then "title"
            else "summary") := by
  rw [check_entry_matches] at hr
  split at hr
  · exact absurd hr (by simp)
  · split at hr
    · exact absurd hr (by simp)
    · split at hr
      · exact absurd hr (by simp)
      · split at hr
        · exact absurd hr (by simp)
        · simp only [] at hr
          split at hr
          · exact absurd hr (by simp)
          · have heq := Option.some.inj hr
            rw [← heq]
            simp only
            constructor
            · rw [foldl_matchStep_fst]
              simp
            · rw [foldl_matchStep_snd]
              rcases hs : survivors community_exclusions (combinedText entry) communities
                with _ | ⟨c, rest⟩
              · simp
              · simp

/-! ### Claim C3 -/

theorem not_mem_survivors {excl : String → List String} {combined : String} {c p : String}
    (hp : p ∈ excl c) (hptext : wbContains (lowerS p) combined = true) :
    ∀ comms : List String, c ∉ survivors excl combined comms := by
  intro comms hmem
  rw [survivors, List.mem_filter] at hmem
  have h2 := hmem.2
  rw [Bool.and_eq_true, Bool.not_eq_true', List.any_eq_false] at h2
  exact absurd hptext (by simpa using h2.2 p hp)

/-- **C3**: if an exclusion phrase `p` configured for community `c` contains
`c` as a whole word, then an entry whose combined title-plus-body text
contains `p` as a whole word is never matched to `c` (the exclusion applies
regardless of any other occurrence of `c`, so the claim's "no other
whole-word occurrence of `c`" hypothesis is not even needed). -/
theorem exclusion_suppresses_community (entry : Entry) (communities : List String)
    (cache : CacheManager.CMState) (feed_url : String) (now : Int)
    (max_age_hours : Option Int) (priority_sources : List String)
    (community_exclusions : String → List String) (exclude_syndicated_from : List String)
    (sourceName : String → String) (c p : String) (r : Article)
    (hp : p ∈ community_exclusions c)
    (_hcp : wbContains (lowerS c) (lowerS p) = true)
    (hptext : wbContains (lowerS p) (combinedText entry) = true)
    (hr : check_entry_matches entry communities cache feed_url now max_age_hours
      priority_sources community_exclusions exclude_syndicated_from sourceName = some r) :
    c ∉ r.communities := by
  rw [(check_entry_matches_some hr).1]
  exact not_mem_survivors hp hptext communities

/-- Witness for C3 on the spec's own scenario: community `"Vista"` with
exclusion `"Chula Vista"`, text `"Poway: Chula Vista opens new library"` —
the entry matches (for `"Poway"`), and `"Vista"` is not among the matched
communities. -/
theorem exclusion_suppresses_community_witness :
    ("Chula Vista" ∈ (fun s => if s = "Vista" then ["Chula Vista"] else []) "Vista") ∧
      ("Vista" ∉ (Article.mk "Poway: Chula Vista opens new library" none false ["Poway"]
        "http://x" "" "Poway: Chula Vista opens new library" "title" "" none).communities) :=
  ⟨by decide,
    exclusion_suppresses_community
      ⟨some "http://x", "Poway: Chula Vista opens new library", "", "", none⟩
      ["Vista", "Poway"] ⟨[]⟩ "f" 0 none []
      (fun s => if s = "Vista" then ["Chula Vista"] else []) [] (fun _ => "")
      "Vista" "Chula Vista" _ (by decide) (by decide) (by decide) (by decide)⟩

/-! ### Claim C8 -/

/-- **C8 (as stated) is false**: with communities `["Poway", "Ramona"]`, title
`"Ramona update"` and summary `"Poway news today"`, both communities survive
and `"Ramona"`'s pattern occurs in the title, yet `match_location` is
`"summary"`, because the location is latched by the first surviving community
(`"Poway"`), which only hits the summary. -/
theorem match_location_counterexample :
    (check_entry_matches ⟨some "http://x", "Ramona update", "Poway news today", "", none⟩
        ["Poway", "Ramona"] ⟨[]⟩ "f" 0 none [] (fun _ => []) [] (fun _ => "") =
      some { title := "Ramona update", pub_ts := none, is_priority := false,
             communities := ["Poway", "Ramona"], link := "http://x", source := "",
             excerpt := "Poway news today", match_location := "summary", urgency := "",
             ai_summary := none }) ∧
      wbContains (lowerS "Ramona") (lowerS (pyStripS "Ramona update")) = true ∧
      ("summary" : String) ≠ "title" :=
  ⟨by decide, by decide, by decide⟩

/-- **C8 (amended)**: the `match_location` of a successful match is decided by
the first surviving community alone: it is `"title"` exactly when that
community's pattern occurs as a whole word in the title text, and `"summary"`
otherwise — a later surviving community hitting the title does not upgrade
the location. -/
theorem match_location_first_survivor (entry : Entry) (communities : List String)
    (cache : CacheManager.CMState) (feed_url : String) (now : Int)
    (max_age_hours : Option Int) (priority_sources : List String)
    (community_exclusions : String → List String) (exclude_syndicated_from : List String)
    (sourceName : String → String) (r : Article) (c : String) (rest : List String)
    (hr : check_entry_matches entry communities cache feed_url now max_age_hours
      priority_sources community_exclusions exclude_syndicated_from sourceName = some r)
    (hcomm : r.communities = c :: rest) :
    r.match_location =
      if wbContains (lowerS c) (lowerS (pyStripS entry.title)) then "title"
      else "summary" := by
  obtain ⟨h1, h2⟩ := check_entry_matches_some hr
  rw [hcomm] at h1
  rw [h2, ← h1]

/-- Witness for the amended C8: on the counterexample input the first
surviving community is `"Poway"`, which does not occur in the title, so the
recorded location is `"summary"`. -/
theorem match_location_first_survivor_witness :
    (Article.mk "Ramona update" none false ["Poway", "Ramona"] "http://x" ""
        "Poway news today" "summary" "" none).match_location =
      if wbContains (lowerS "Poway") (lowerS (pyStripS "Ramona update")) then "title"
      else "summary" :=
  match_location_first_survivor
    ⟨some "http://x", "Ramona update", "Poway news today", "", none⟩
    ["Poway", "Ramona"] ⟨[]⟩ "f" 0 none [] (fun _ => []) [] (fun _ => "")
    (Article.mk "Ramona update" none false ["Poway", "Ramona"] "http://x" ""
      "Poway news today" "summary" "" none) "Poway" ["Ramona"]
    (by decide) (by decide)

/-! ### Orchestrator — `scrape_and_notify`

The external collaborators appear as parameters: `avail` is
`llm.is_available()`; `relOracle` and `verOracle` are the parsed per-item
answers of the relevance / verification chat calls (arbitrary functions, so
every real oracle behaviour is an instance); `urgOracle` and `sumOracle` are
the raw chat replies used by `classify_urgency` / `summarize_article`;
`embRaw` is the embedding-based similarity oracle when `llm.get_embeddings`
returns usable vectors; `deliver` is the notifier's success outcome per sent
group; `sourceName` is the display-name helper `extract_source_name`.
Feed fetching is external: `feeds` is the list of (feed url, parsed entries)
pairs that were fetched successfully. -/

/-- `ai_helpers.batch_ai_relevance`: neutral `[]` answers when the client is
unavailable or there is nothing to ask; otherwise the parsed answers, padded
with `[]` and truncated to the number of candidates. -/
def batch_ai_relevance (avail : Bool)
    (relOracle : List (String × String) → List (List String))
    (candidates : List (String × String)) (communities : List String) :
    List (List String) :=
  if ¬avail ∨ candidates = [] ∨ communities = [] then candidates.map (fun _ => [])
  else
    ((relOracle candidates) ++
      List.replicate (candidates.length - (relOracle candidates).length) []).take
      candidates.length

/-- `ai_helpers.batch_verify_community_relevance`: `False` answers when
unavailable or empty; otherwise the parsed answers, padded with `False` and
truncated. -/
def batch_verify_community_relevance (avail : Bool)
    (verOracle : List (String × String × String) → List Bool)
    (items : List (String × String × String)) : List Bool :=
  if ¬avail ∨ items = [] then items.map (fun _ => false)
  else
    ((verOracle items) ++
      List.replicate (items.length - (verOracle items).length) false).take items.length

/-- `ai_helpers.classify_urgency`: `"routine"` when unavailable, on an empty
reply, or on an unrecognized reply; otherwise the lower-cased stripped
reply. -/
def classify_urgency (avail : Bool) (urgOracle : String → String → Option String)
    (title excerpt : String) : String :=
  if ¬avail then "routine"
  else
    match urgOracle title excerpt with
    | none => "routine"
    | some out =>
      if out = "" then "routine"
      else
        let o := pyStripS (lowerS out)
        if o = "breaking" ∨ o = "developing" ∨ o = "routine" then o else "routine"

/-- `ai_helpers.summarize_article`: `None` when unavailable, else the reply. -/
def summarize_article (avail : Bool) (sumOracle : String → String → Option String)
    (title excerpt : String) : Option String :=
  if ¬avail then none else sumOracle title excerpt

/-- `_build_match_from_entry`. -/
def _build_match_from_entry (entry : Entry) (feed_url : String)
    (matching_communities : List String) (match_location : String)
    (priority_sources : List String) (sourceName : String → String) : Article :=
  let title := pyStripS entry.title
  let summary_plain := pyStripS entry.summary_plain
  { title := title
    pub_ts := entry.pub_ts
    is_priority := is_priority_source feed_url priority_sources
    communities := matching_communities
    link := entry.link.getD ""
    source := sourceName feed_url
    excerpt := if summary_plain ≠ "" then summary_plain else title
    match_location := match_location
    urgency := ""
    ai_summary := none }

/-- The configuration arguments of `scrape_and_notify` that the model uses
(display-only arguments such as `excerpt_length` and `unfurl_links` are
omitted).  Defaults are the source's defaults. -/
structure Config where
  communities : List String := []
  max_age_hours : Option Int := none
  priority_sources : List String := []
  group_stories_flag : Bool := true
  similarity_threshold : ℚ := mkRat 3 5
  community_exclusions : String → List String := fun _ => []
  exclude_syndicated_from : List String := []
  use_semantic_grouping : Bool := false
  semantic_similarity_threshold : ℚ := mkRat 39 50
  use_ai_summaries : Bool := false
  use_ai_relevance : Bool := false
  ai_relevance_exclusion_phrases : List String := []
  use_urgency : Bool := false

/-- One entry of the collection loop: a literal match goes to `all_matches`;
otherwise, when the AI-relevance fallback is enabled and the entry is not
syndicated, not too old, and mentions no cross-region exclusion phrase, the
entry is queued for the AI-relevance batch. -/
def collectStep (cfg : Config) (cache : CacheManager.CMState) (now : Int)
    (sourceName : String → String) (avail : Bool)
    (acc : List Article × List (Entry × String)) (efu : Entry × String) :
    List Article × List (Entry × String) :=
  match check_entry_matches efu.1 cfg.communities cache efu.2 now cfg.max_age_hours
      cfg.priority_sources cfg.community_exclusions cfg.exclude_syndicated_from
      sourceName with
  | some m => (acc.1 ++ [m], acc.2)
  | none =>
    if cfg.use_ai_relevance ∧ avail ∧
        ¬(cfg.exclude_syndicated_from ≠ [] ∧
          is_syndicated_from efu.1 cfg.exclude_syndicated_from) then
      if tooOld now cfg.max_age_hours efu.1.pub_ts then acc
      else if cfg.ai_relevance_exclusion_phrases ≠ [] then
        if cfg.ai_relevance_exclusion_phrases.any (fun phrase =>
            decide (pyStripS phrase ≠ "") &&
              wbContains (lowerS phrase) (combinedText efu.1)) then acc
        else (acc.1, acc.2 ++ [efu])
      else (acc.1, acc.2 ++ [efu])
    else acc

/-- The AI-relevance phase: batch request on the queued candidates, a
verification pass on the non-empty assignments, then the dedup re-check
before an AI match joins `all_matches`.  Returns the added matches and the
`(title, excerpt)` pairs sent to the oracle. -/
def aiPhase (cfg : Config) (cache : CacheManager.CMState) (sourceName : String → String)
    (avail : Bool) (relOracle : List (String × String) → List (List String))
    (verOracle : List (String × String × String) → List Bool)
    (cands : List (Entry × String)) : List Article × List (String × String) :=
  if cfg.use_ai_relevance ∧ cands ≠ [] ∧ avail then
    let pairs := cands.map (fun ef =>
      let title := pyStripS ef.1.title
      let sp := pyStripS ef.1.summary_plain
      (title, if sp ≠ "" then sp else title))
    let rel := batch_ai_relevance avail relOracle pairs cfg.communities
    let to_verify_entries := (cands.zip rel).filter (fun z => decide (z.2 ≠ []))
    let to_verify := to_verify_entries.map (fun z =>
      let title := pyStripS z.1.1.title
      let sp := pyStripS z.1.1.summary_plain
      (title, (if sp ≠ "" then sp else title), z.2.headI))
    if to_verify_entries ≠ [] then
      let verified := batch_verify_community_relevance avail verOracle to_verify
      let added := (to_verify_entries.zip verified).foldl (fun acc2 z =>
        if z.2 then
          let m := _build_match_from_entry z.1.1.1 z.1.1.2 z.1.2 "ai_relevance"
            cfg.priority_sources sourceName
          if UrlNorm._normalize_url m.link ∈ cache.seen then acc2 else acc2 ++ [m]
        else acc2) []
      (added, pairs)
    else ([], pairs)
  else ([], [])

/-- `urgency_order.get(m.get('urgency', 'routine'), 2)`. -/
def urgency_order (u : String) : Nat :=
  if u = "breaking" then 0 else if u = "developing" then 1 else 2

/-- The global sort key before grouping: urgency rank, then descending
timestamp. -/
def urgencyKey (m : Article) : Nat × Int :=
  (urgency_order m.urgency,
    -(match m.pub_ts with
      | some t => t
      | none => 0))

def urgencyLe (a b : Article) : Prop :=
  (urgencyKey a).1 < (urgencyKey b).1 ∨
    ((urgencyKey a).1 = (urgencyKey b).1 ∧ (urgencyKey a).2 ≤ (urgencyKey b).2)

instance : DecidableRel urgencyLe := fun a b => by
  unfold urgencyLe; infer_instance

/-- The delivery loop over the produced groups: a group of two or more is
sent as one grouped notification, a singleton individually; on success every
member's link is marked and the posted count grows.  Returns (marked links,
posted count, delivered articles). -/
def deliverGroups (deliver : List Article → Bool) (groups : List (List Article)) :
    List String × Nat × List Article :=
  groups.foldl (fun acc group =>
    if 1 < group.length then
      if deliver group then
        (acc.1 ++ group.map (fun a => a.link), acc.2.1 + group.length, acc.2.2 ++ group)
      else acc
    else
      if deliver group then
        (acc.1 ++ [group.headI.link], acc.2.1 + 1, acc.2.2 ++ [group.headI])
      else acc) ([], 0, [])

/-- The observable outcome of one `scrape_and_notify` run. -/
structure ScrapeResult where
  all_matches : List Article
  ai_requests : List (String × String)
  delivered : List Article
  marked_links : List String
  posted : Nat
  final_cache : CacheManager.CMState

/-- The collection loop over every entry of every fetched feed. -/
def collectPhase (cfg : Config) (cache : CacheManager.CMState) (now : Int)
    (sourceName : String → String) (avail : Bool)
    (feeds : List (String × List Entry)) : List Article × List (Entry × String) :=
  ((feeds.map (fun f => f.2.map (fun e => (e, f.1)))).flatten).foldl
    (collectStep cfg cache now sourceName avail) ([], [])

/-- The urgency and AI-summary annotation applied to each match before the
global sort. -/
def annotate (cfg : Config) (avail : Bool)
    (urgOracle sumOracle : String → String → Option String) (m : Article) : Article :=
  { m with
    urgency :=
      if cfg.use_urgency ∧ avail then classify_urgency avail urgOracle m.title m.excerpt
      else "routine"
    ai_summary :=
      if cfg.use_ai_summaries ∧ avail then
        summarize_article avail sumOracle m.title m.excerpt
      else none }

/-- `scrape_and_notify`: collect literal matches and AI candidates over all
fetched entries, run the AI-relevance fallback, annotate urgency and
summaries, sort globally by urgency then recency, group, deliver, and mark
delivered links in the dedup store. -/
def scrape_and_notify (cfg : Config) (feeds : List (String × List Entry))
    (cache : CacheManager.CMState) (now : Int) (sourceName : String → String)
    (avail : Bool) (relOracle : List (String × String) → List (List String))
    (verOracle : List (String × String × String) → List Bool)
    (urgOracle sumOracle : String → String → Option String)
    (embRaw : Option (Nat → Nat → ℚ)) (deliver : List Article → Bool) : ScrapeResult :=
  let collected := collectPhase cfg cache now sourceName avail feeds
  let ai := aiPhase cfg cache sourceName avail relOracle verOracle collected.2
  let all_matches := collected.1 ++ ai.1
  if all_matches = [] then
    { all_matches := [], ai_requests := ai.2, delivered := [], marked_links := []
      posted := 0, final_cache := cache }
  else
    let emb :=
      if cfg.use_semantic_grouping ∧ avail ∧ 1 < all_matches.length then embRaw else none
    let sorted :=
      (all_matches.map (annotate cfg avail urgOracle sumOracle)).insertionSort urgencyLe
    let group_threshold :=
      if cfg.use_semantic_grouping ∧ emb.isSome then cfg.semantic_similarity_threshold
      else cfg.similarity_threshold
    let outcome :=
      if cfg.group_stories_flag ∧ 1 < all_matches.length then
        deliverGroups deliver (StoryGrouper.group_stories group_threshold sorted emb)
      else
        deliverGroups deliver (sorted.map (fun m => [m]))
    { all_matches := all_matches, ai_requests := ai.2, delivered := outcome.2.2
      marked_links := outcome.1, posted := outcome.2.1
      final_cache := CacheManager.applyMarks cache outcome.1 }

/-! ### Claim C9 -/

theorem headI_mem_of_ne_nil {α : Type} [Inhabited α] {l : List α} (h : l ≠ []) :
    l.headI ∈ l := by
  cases l with
  | nil => exact absurd rfl h
  | cons a t => simp

/-- A successful literal match has an unseen key: `check_entry_matches`
returns early on `has_seen`. -/
theorem check_entry_matches_unseen {entry : Entry} {communities : List String}
    {cache : CacheManager.CMState} {feed_url : String} {now : Int}
    {max_age_hours : Option Int} {priority_sources : List String}
    {community_exclusions : String → List String} {exclude_syndicated_from : List String}
    {sourceName : String → String} {r : Article}
    (hr : check_entry_matches entry communities cache feed_url now max_age_hours
      priority_sources community_exclusions exclude_syndicated_from sourceName = some r) :
    UrlNorm._normalize_url r.link ∉ cache.seen := by
  rw [check_entry_matches] at hr
  split at hr
  · exact absurd hr (by simp)
  · split at hr
    · exact absurd hr (by simp)
    · split at hr
      · exact absurd hr (by simp)
      · split at hr
        · exact absurd hr (by simp)
        · simp only [] at hr
          split at hr
          · exact absurd hr (by simp)
          · have heq := Option.some.inj hr
            rw [← heq]
            simp only
            assumption

theorem collectStep_fst (cfg : Config) (cache : CacheManager.CMState) (now : Int)
    (sourceName : String → String) (avail : Bool)
    (acc : List Article × List (Entry × String)) (efu : Entry × String) :
    (collectStep cfg cache now sourceName avail acc efu).1 = acc.1 ∨
      ∃ m0, check_entry_matches efu.1 cfg.communities cache efu.2 now cfg.max_age_hours
          cfg.priority_sources cfg.community_exclusions cfg.exclude_syndicated_from
          sourceName = some m0 ∧
        (collectStep cfg cache now sourceName avail acc efu).1 = acc.1 ++ [m0] := by
  rcases hm0 : check_entry_matches efu.1 cfg.communities cache efu.2 now cfg.max_age_hours
      cfg.priority_sources cfg.community_exclusions cfg.exclude_syndicated_from
      sourceName with _ | m0
  · left
    rw [collectStep, hm0]
    split
    · contradiction
    · split
      · split
        · rfl
        · split
          · split
            · rfl
            · rfl
          · rfl
      · rfl
  · right
    refine ⟨m0, rfl, ?_⟩
    rw [collectStep, hm0]

theorem collect_matches_unseen (cfg : Config) (cache : CacheManager.CMState) (now : Int)
    (sourceName : String → String) (avail : Bool) :
    ∀ (l : List (Entry × String)) (acc : List Article × List (Entry × String)),
      (∀ m ∈ acc.1, UrlNorm._normalize_url m.link ∉ cache.seen) →
      ∀ m ∈ (l.foldl (collectStep cfg cache now sourceName avail) acc).1,
        UrlNorm._normalize_url m.link ∉ cache.seen
  | [], _, hacc => hacc
  | efu :: rest, acc, hacc => by
    rw [List.foldl_cons]
    refine collect_matches_unseen cfg cache now sourceName avail rest _ ?_
    intro m hm
    rcases collectStep_fst cfg cache now sourceName avail acc efu with h | ⟨m0, hm0, h⟩
    · rw [h] at hm
      exact hacc m hm
    · rw [h] at hm
      rcases List.mem_append.1 hm with h1 | h1
      · exact hacc m h1
      · have : m = m0 := by simpa using h1
        rw [this]
        exact check_entry_matches_unseen hm0

theorem foldl_ai_added_unseen (cfg : Config) (cache : CacheManager.CMState)
    (sourceName : String → String) :
    ∀ (zs : List (((Entry × String) × List String) × Bool)) (acc2 : List Article),
      (∀ m ∈ acc2, UrlNorm._normalize_url m.link ∉ cache.seen) →
      ∀ m ∈ zs.foldl (fun acc2 z =>
          if z.2 then
            let m := _build_match_from_entry z.1.1.1 z.1.1.2 z.1.2 "ai_relevance"
              cfg.priority_sources sourceName
            if UrlNorm._normalize_url m.link ∈ cache.seen then acc2 else acc2 ++ [m]
          else acc2) acc2,
        UrlNorm._normalize_url m.link ∉ cache.seen
  | [], _, hacc => hacc
  | z :: rest, acc2, hacc => by
    rw [List.foldl_cons]
    refine foldl_ai_added_unseen cfg cache sourceName rest _ ?_
    intro m hm
    by_cases hz : z.2
    · rw [if_pos hz] at hm
      simp only [] at hm
      by_cases hs : UrlNorm._normalize_url
          (_build_match_from_entry z.1.1.1 z.1.1.2 z.1.2 "ai_relevance"
            cfg.priority_sources sourceName).link ∈ cache.seen
      · rw [if_pos hs] at hm
        exact hacc m hm
      · rw [if_neg hs] at hm
        rcases List.mem_append.1 hm with h1 | h1
        · exact hacc m h1
        · have hm0 : m = _build_match_from_entry z.1.1.1 z.1.1.2 z.1.2 "ai_relevance"
              cfg.priority_sources sourceName := by simpa using h1
          rw [hm0]
          exact hs
    · rw [if_neg hz] at hm
      exact hacc m hm

theorem aiPhase_matches_unseen (cfg : Config) (cache : CacheManager.CMState)
    (sourceName : String → String) (avail : Bool)
    (relOracle : List (String × String) → List (List String))
    (verOracle : List (String × String × String) → List Bool)
    (cands : List (Entry × String)) :
    ∀ m ∈ (aiPhase cfg cache sourceName avail relOracle verOracle cands).1,
      UrlNorm._normalize_url m.link ∉ cache.seen := by
  intro m hm
  rw [aiPhase] at hm
  split at hm
  · simp only [] at hm
    split at hm
    · exact foldl_ai_added_unseen cfg cache sourceName _ []
        (fun m hmem => absurd hmem (List.not_mem_nil m)) m hm
    · exact absurd hm (List.not_mem_nil m)
  · exact absurd hm (List.not_mem_nil m)

theorem deliverGroups_fold (deliver : List Article → Bool) (P : Article → Prop) :
    ∀ (gs : List (List Article)) (acc : List String × Nat × List Article),
      (∀ g ∈ gs, ∀ a ∈ g, P a) → (∀ g ∈ gs, g ≠ []) →
      (∀ a ∈ acc.2.2, P a) → (∀ k ∈ acc.1, ∃ a, P a ∧ k = a.link) →
      (∀ a ∈ (gs.foldl (fun acc group =>
          if 1 < group.length then
            if deliver group then
              (acc.1 ++ group.map (fun a => a.link), acc.2.1 + group.length,
                acc.2.2 ++ group)
            else acc
          else
            if deliver group then
              (acc.1 ++ [group.headI.link], acc.2.1 + 1, acc.2.2 ++ [group.headI])
            else acc) acc).2.2, P a) ∧
        (∀ k ∈ (gs.foldl (fun acc group =>
          if 1 < group.length then
            if deliver group then
              (acc.1 ++ group.map (fun a => a.link), acc.2.1 + group.length,
                acc.2.2 ++ group)
            else acc
          else
            if deliver group then
              (acc.1 ++ [group.headI.link], acc.2.1 + 1, acc.2.2 ++ [group.headI])
            else acc) acc).1, ∃ a, P a ∧ k = a.link)
  | [], _, _, _, hacc1, hacc2 => ⟨hacc1, hacc2⟩
  | g :: rest, acc, hgs, hne, hacc1, hacc2 => by
    rw [List.foldl_cons]
    refine deliverGroups_fold deliver P rest _
      (fun g' hg' => hgs g' (List.mem_cons_of_mem g hg'))
      (fun g' hg' => hne g' (List.mem_cons_of_mem g hg')) ?_ ?_
    · intro a ha
      by_cases hlen : 1 < g.length
      · rw [if_pos hlen] at ha
        by_cases hd : deliver g
        · rw [if_pos hd] at ha
          rcases List.mem_append.1 ha with h1 | h1
          · exact hacc1 a h1
          · exact hgs g (List.mem_cons_self g rest) a h1
        · rw [if_neg hd] at ha
          exact hacc1 a ha
      · rw [if_neg hlen] at ha
        by_cases hd : deliver g
        · rw [if_pos hd] at ha
          rcases List.mem_append.1 ha with h1 | h1
          · exact hacc1 a h1
          · have : a = g.headI := by simpa using h1
            rw [this]
            exact hgs g (List.mem_cons_self g rest) g.headI
              (headI_mem_of_ne_nil (hne g (List.mem_cons_self g rest)))
        · rw [if_neg hd] at ha
          exact hacc1 a ha
    · intro k hk
      by_cases hlen : 1 < g.length
      · rw [if_pos hlen] at hk
        by_cases hd : deliver g
        · rw [if_pos hd] at hk
          rcases List.mem_append.1 hk with h1 | h1
          · exact hacc2 k h1
          · rcases List.mem_map.1 h1 with ⟨a, ha, rfl⟩
            exact ⟨a, hgs g (List.mem_cons_self g rest) a ha, rfl⟩
        · rw [if_neg hd] at hk
          exact hacc2 k hk
      · rw [if_neg hlen] at hk
        by_cases hd : deliver g
        · rw [if_pos hd] at hk
          rcases List.mem_append.1 hk with h1 | h1
          · exact hacc2 k h1
          · have : k = g.headI.link := by simpa using h1
            exact ⟨g.headI, hgs g (List.mem_cons_self g rest) g.headI
              (headI_mem_of_ne_nil (hne g (List.mem_cons_self g rest))), this⟩
        · rw [if_neg hd] at hk
          exact hacc2 k hk

theorem annotate_link (cfg : Config) (avail : Bool)
    (urgOracle sumOracle : String → String → Option String) (m : Article) :
    (annotate cfg avail urgOracle sumOracle m).link = m.link := rfl

theorem mem_sorted_key_unseen (cfg : Config) (avail : Bool)
    (urgOracle sumOracle : String → String → Option String)
    (cache : CacheManager.CMState) (all : List Article)
    (hall : ∀ m ∈ all, UrlNorm._normalize_url m.link ∉ cache.seen) :
    ∀ a ∈ (all.map (annotate cfg avail urgOracle sumOracle)).insertionSort urgencyLe,
      UrlNorm._normalize_url a.link ∉ cache.seen := by
  intro a ha
  have h1 : a ∈ all.map (annotate cfg avail urgOracle sumOracle) :=
    (List.perm_insertionSort urgencyLe _).subset ha
  rcases List.mem_map.1 h1 with ⟨m, hm, rfl⟩
  rw [annotate_link]
  exact hall m hm

theorem deliverGroups_conclusions (deliver : List Article → Bool)
    (gs : List (List Article)) (P : Article → Prop)
    (hgs : ∀ g ∈ gs, ∀ a ∈ g, P a) (hne : ∀ g ∈ gs, g ≠ []) :
    (∀ a ∈ (deliverGroups deliver gs).2.2, P a) ∧
      (∀ k ∈ (deliverGroups deliver gs).1, ∃ a, P a ∧ k = a.link) := by
  rw [deliverGroups]
  exact deliverGroups_fold deliver P gs ([], 0, []) hgs hne
    (fun a ha => absurd ha (List.not_mem_nil a))
    (fun k hk => absurd hk (List.not_mem_nil k))

theorem deliverGroups_singletons (deliver : List Article → Bool) (P : Article → Prop)
    (l : List Article) (hl : ∀ m ∈ l, P m) :
    (∀ a ∈ (deliverGroups deliver (l.map (fun m => [m]))).2.2, P a) ∧
      (∀ k ∈ (deliverGroups deliver (l.map (fun m => [m]))).1, ∃ a, P a ∧ k = a.link) :=
  deliverGroups_conclusions deliver (l.map (fun m => [m])) P
    (fun g hg a ha => by
      rcases List.mem_map.1 hg with ⟨m, hm, rfl⟩
      have ham : a = m := by simpa using ha
      rw [ham]
      exact hl m hm)
    (fun g hg => by
      rcases List.mem_map.1 hg with ⟨m, _, rfl⟩
      simp)

theorem deliverGroups_grouped (deliver : List Article → Bool) (P : Article → Prop)
    (θ : ℚ) (l : List Article) (emb : Option (Nat → Nat → ℚ)) (hl : ∀ m ∈ l, P m) :
    (∀ a ∈ (deliverGroups deliver (StoryGrouper.group_stories θ l emb)).2.2, P a) ∧
      (∀ k ∈ (deliverGroups deliver (StoryGrouper.group_stories θ l emb)).1,
        ∃ a, P a ∧ k = a.link) :=
  deliverGroups_conclusions deliver (StoryGrouper.group_stories θ l emb) P
    (fun g hg a ha => hl a ((StoryGrouper.group_stories_flatten_perm θ l emb).subset
      (List.mem_flatten.2 ⟨g, hg, ha⟩)))
    (StoryGrouper.group_stories_ne_nil θ l emb)

/-- Every article the run matches, delivers or marks has a dedup key that was
not in the store at the start of the run. -/
theorem scrape_unseen_keys (cfg : Config) (feeds : List (String × List Entry))
    (cache : CacheManager.CMState) (now : Int) (sourceName : String → String)
    (avail : Bool) (relOracle : List (String × String) → List (List String))
    (verOracle : List (String × String × String) → List Bool)
    (urgOracle sumOracle : String → String → Option String)
    (embRaw : Option (Nat → Nat → ℚ)) (deliver : List Article → Bool) :
    (∀ m ∈ (scrape_and_notify cfg feeds cache now sourceName avail relOracle verOracle
        urgOracle sumOracle embRaw deliver).all_matches,
        UrlNorm._normalize_url m.link ∉ cache.seen) ∧
      (∀ a ∈ (scrape_and_notify cfg feeds cache now sourceName avail relOracle verOracle
          urgOracle sumOracle embRaw deliver).delivered,
          UrlNorm._normalize_url a.link ∉ cache.seen) ∧
      (∀ k ∈ (scrape_and_notify cfg feeds cache now sourceName avail relOracle verOracle
          urgOracle sumOracle embRaw deliver).marked_links,
          UrlNorm._normalize_url k ∉ cache.seen) := by
  have hall : ∀ m ∈ (collectPhase cfg cache now sourceName avail feeds).1 ++
      (aiPhase cfg cache sourceName avail relOracle verOracle
        (collectPhase cfg cache now sourceName avail feeds).2).1,
      UrlNorm._normalize_url m.link ∉ cache.seen := by
    intro m hm
    rcases List.mem_append.1 hm with h | h
    · rw [collectPhase] at h
      exact collect_matches_unseen cfg cache now sourceName avail _ ([], [])
        (fun m hmem => absurd hmem (List.not_mem_nil m)) m h
    · exact aiPhase_matches_unseen cfg cache sourceName avail relOracle verOracle _ m h
  rw [scrape_and_notify]
  simp only []
  split
  · refine ⟨?_, ?_, ?_⟩ <;> (intro x hx; exact absurd hx (List.not_mem_nil x))
  · have hsorted := mem_sorted_key_unseen cfg avail urgOracle sumOracle cache _ hall
    refine ⟨hall, ?_, ?_⟩ <;> split
    · exact (deliverGroups_grouped deliver
        (fun a => UrlNorm._normalize_url a.link ∉ cache.seen) _ _ _ hsorted).1
    · exact (deliverGroups_singletons deliver
        (fun a => UrlNorm._normalize_url a.link ∉ cache.seen) _ hsorted).1
    · obtain ⟨_, hmark⟩ := deliverGroups_grouped deliver
        (fun a => UrlNorm._normalize_url a.link ∉ cache.seen) _ _ _ hsorted
      intro k hk
      rcases hmark k hk with ⟨a, hPa, rfl⟩
      exact hPa
    · obtain ⟨_, hmark⟩ := deliverGroups_singletons deliver
        (fun a => UrlNorm._normalize_url a.link ∉ cache.seen) _ hsorted
      intro k hk
      rcases hmark k hk with ⟨a, hPa, rfl⟩
      exact hPa

/-- **C9 (as stated) is false**: a single entry whose normalized link is
already in the dedup store is *not* excluded before community matching runs
on it — the AI-relevance fallback still sends it to the relevance oracle (its
title/excerpt pair appears in the batch request), because the `elif` that
queues AI candidates fires whenever `check_entry_matches` returns `None`,
including the already-seen case.  (The discarded result never becomes a
candidate; see the amended theorem.) -/
theorem seen_entry_sent_to_ai_counterexample :
    (UrlNorm._normalize_url "http://x" ∈
        (CacheManager.CMState.mk [UrlNorm._normalize_url "http://x"]).seen) ∧
      (scrape_and_notify
          { communities := ["vista"], use_ai_relevance := true }
          [("f", [⟨some "http://x", "Seen story", "", "", none⟩])]
          ⟨[UrlNorm._normalize_url "http://x"]⟩ 0 (fun _ => "") true
          (fun _ => []) (fun _ => []) (fun _ _ => none) (fun _ _ => none) none
          (fun _ => false)).ai_requests = [("Seen story", "Seen story")] :=
  ⟨by decide, by decide⟩

/-- **C9 (amended)**: for every dedup key present in the store at the start
of a run, no candidate with that key is ever produced (neither by literal
matching, which returns early on `has_seen`, nor by the AI-relevance
fallback, which drops its result at the `has_seen` re-check before it becomes
a candidate), and no article with that key is ever delivered or re-marked.
On the AI path the seen entry may still be sent to the oracle; it is excluded
before candidacy, not before matching. -/
theorem seen_key_never_candidate (cfg : Config) (feeds : List (String × List Entry))
    (cache : CacheManager.CMState) (now : Int) (sourceName : String → String)
    (avail : Bool) (relOracle : List (String × String) → List (List String))
    (verOracle : List (String × String × String) → List Bool)
    (urgOracle sumOracle : String → String → Option String)
    (embRaw : Option (Nat → Nat → ℚ)) (deliver : List Article → Bool) (lnk : String)
    (hseen : UrlNorm._normalize_url lnk ∈ cache.seen) :
    (∀ m ∈ (scrape_and_notify cfg feeds cache now sourceName avail relOracle verOracle
        urgOracle sumOracle embRaw deliver).all_matches,
        UrlNorm._normalize_url m.link ≠ UrlNorm._normalize_url lnk) ∧
      (∀ a ∈ (scrape_and_notify cfg feeds cache now sourceName avail relOracle verOracle
          urgOracle sumOracle embRaw deliver).delivered,
          UrlNorm._normalize_url a.link ≠ UrlNorm._normalize_url lnk) ∧
      (∀ k ∈ (scrape_and_notify cfg feeds cache now sourceName avail relOracle verOracle
          urgOracle sumOracle embRaw deliver).marked_links,
          UrlNorm._normalize_url k ≠ UrlNorm._normalize_url lnk) := by
  obtain ⟨h1, h2, h3⟩ := scrape_unseen_keys cfg feeds cache now sourceName avail relOracle
    verOracle urgOracle sumOracle embRaw deliver
  refine ⟨fun m hm he => h1 m hm ?_, fun a ha he => h2 a ha ?_, fun k hk he => h3 k hk ?_⟩
  · rw [he]
    exact hseen
  · rw [he]
    exact hseen
  · rw [he]
    exact hseen

/-- Witness for the amended C9 at the counterexample's input: the seen key is
in the store, and the run produces no candidate, delivery or mark carrying
it. -/
theorem seen_key_never_candidate_witness :
    (UrlNorm._normalize_url "http://x" ∈
        (CacheManager.CMState.mk [UrlNorm._normalize_url "http://x"]).seen) ∧
      ((∀ m ∈ (scrape_and_notify
          { communities := ["vista"], use_ai_relevance := true }
          [("f", [⟨some "http://x", "Seen story", "", "", none⟩])]
          ⟨[UrlNorm._normalize_url "http://x"]⟩ 0 (fun _ => "") true
          (fun _ => []) (fun _ => []) (fun _ _ => none) (fun _ _ => none) none
          (fun _ => false)).all_matches,
          UrlNorm._normalize_url m.link ≠ UrlNorm._normalize_url "http://x") ∧
        (∀ a ∈ (scrape_and_notify
            { communities := ["vista"], use_ai_relevance := true }
            [("f", [⟨some "http://x", "Seen story", "", "", none⟩])]
            ⟨[UrlNorm._normalize_url "http://x"]⟩ 0 (fun _ => "") true
            (fun _ => []) (fun _ => []) (fun _ _ => none) (fun _ _ => none) none
            (fun _ => false)).delivered,
            UrlNorm._normalize_url a.link ≠ UrlNorm._normalize_url "http://x") ∧
        (∀ k ∈ (scrape_and_notify
            { communities := ["vista"], use_ai_relevance := true }
            [("f", [⟨some "http://x", "Seen story", "", "", none⟩])]
            ⟨[UrlNorm._normalize_url "http://x"]⟩ 0 (fun _ => "") true
            (fun _ => []) (fun _ => []) (fun _ _ => none) (fun _ _ => none) none
            (fun _ => false)).marked_links,
            UrlNorm._normalize_url k ≠ UrlNorm._normalize_url "http://x")) :=
  ⟨by decide,
    seen_key_never_candidate { communities := ["vista"], use_ai_relevance := true }
      [("f", [⟨some "http://x", "Seen story", "", "", none⟩])]
      ⟨[UrlNorm._normalize_url "http://x"]⟩ 0 (fun _ => "") true
      (fun _ => []) (fun _ => []) (fun _ _ => none) (fun _ _ => none) none
      (fun _ => false) "http://x" (by decide)⟩

end Scraper

end NewsScraper
